import Mathlib

/-!
# tcframe: segment printing, format aggregation and constraint-verification results

A shallow embedding of `include/tcframe/io.hpp`, of
`include/tcframe/spec/verifier/MultipleTestCasesConstraintsVerificationResult.hpp` and of
`include/tcframe/io/LineIOSegment.hpp` (under `tcframe.io`, since it declares a second
`LineIOSegment`).

* An `ostream` is the `String` written so far; `out << x` appends the text of `x`.
* A call that may throw or index a container out of range ends in an `Outcome`, which records
  the stream contents at the point the call ended.
* Container sizes are natural numbers: the source stores them in `int`, and the embedding
  covers containers whose sizes fit that type.
* Objects created with `new` live in a heap (a list in allocation order); a pointer is the
  position of its object in that list.
-/

namespace tcframe

/-! ## Exceptions and outcomes -/

/-- The exception thrown by the segments, identified by its message. -/
structure IOFormatException where
  message : String
  deriving DecidableEq, Repr

/-- How a `printTo` call ends: it returns, it throws, or it indexes a container out of range.
`out` is the stream contents at that point. -/
inductive Outcome where
  | returned (out : String)
  | thrown (e : IOFormatException) (out : String)
  | outOfRange
  deriving DecidableEq, Repr

/-! ## Variable adapters (`type.hpp`) -/

/-- Modelled from the spec: `type.hpp` is not among the sources. A `HorizontalVariable` is
either a `Scalar` ("print my one value") or a `HorizontalVector` (a sequence printed within one
line). A bound value is held as the text that `out << value` writes for it. -/
inductive HorizontalVariable where
  | Scalar (value : String)
  | HorizontalVector (value : List String)
  deriving DecidableEq, Repr

/-- Modelled from the spec: `HorizontalVariable::printTo` of `type.hpp`. A scalar prints its one
value; a horizontal sequence prints "every element of that sequence in its own internal order,
space-separated, as one contiguous run within the line". -/
def HorizontalVariable.printTo : HorizontalVariable → String → String
  | .Scalar value, out => out ++ value
  | .HorizontalVector value, out => out ++ String.intercalate " " value

/-- The tokens an adapter of a Line segment contributes: one for a scalar, one per element for
a vector. -/
def HorizontalVariable.tokens : HorizontalVariable → List String
  | .Scalar value => [value]
  | .HorizontalVector value => value

/-- Modelled from the spec: `VerticalVariable` / `VerticalVector<T>` of `type.hpp`, a bound
vector exposing "print my i-th value" and "my length". -/
structure VerticalVariable where
  value : List String
  deriving DecidableEq, Repr

/-- Modelled from the spec: `VerticalVariable::size`, the length of the bound vector. -/
def VerticalVariable.size (v : VerticalVariable) : Nat :=
  v.value.length

/-- Modelled from the spec: `VerticalVariable::printElementTo(index, out)` writes element
`index` of the bound vector; `none` when `index` is out of range. -/
def VerticalVariable.printElementTo (v : VerticalVariable) (index : Nat) (out : String) :
    Option String :=
  match v.value[index]? with
  | none => none
  | some element => some (out ++ element)

/-- Modelled from the spec: `MatrixVariable` / `Matrix<T>` of `type.hpp`, a bound 2-D container
exposing row count, column count of row `i`, and "print element (i, j)". -/
structure MatrixVariable where
  value : List (List String)
  deriving DecidableEq, Repr

/-- Modelled from the spec: `MatrixVariable::rowsSize`. -/
def MatrixVariable.rowsSize (m : MatrixVariable) : Nat :=
  m.value.length

/-- Modelled from the spec: `MatrixVariable::columnsSize(i)`, the length of row `i`; `none`
when there is no row `i`. -/
def MatrixVariable.columnsSize (m : MatrixVariable) (i : Nat) : Option Nat :=
  match m.value[i]? with
  | none => none
  | some row => some row.length

/-- Modelled from the spec: `MatrixVariable::printElementTo(i, j, out)` writes cell `(i, j)`;
`none` when the cell does not exist. -/
def MatrixVariable.printElementTo (m : MatrixVariable) (i j : Nat) (out : String) :
    Option String :=
  match m.value[i]? with
  | none => none
  | some row =>
    match row[j]? with
    | none => none
    | some element => some (out ++ element)

/-! ## `LineIOSegment` -/

/-- A Line segment: `description` and the member `variables`, named `vars` here because
`variables` is a reserved word. -/
structure LineIOSegment where
  description : String
  vars : List HorizontalVariable
  deriving DecidableEq, Repr

/-- The range-for loop of `LineIOSegment::printTo` over the remaining variables, with the
current value of the local `first`. -/
def LineIOSegment.printVariables : List HorizontalVariable → Bool → String → String
  | [], _, out => out
  | var :: rest, first, out =>
    let out1 := if !first then out ++ " " else out
    LineIOSegment.printVariables rest false (var.printTo out1)

/-- `LineIOSegment::printTo`. -/
def LineIOSegment.printTo (s : LineIOSegment) (out : String) : Outcome :=
  .returned (LineIOSegment.printVariables s.vars true out ++ "\n")

/-- What `operator,` of a Line segment can be applied to: a basic scalar, a vector of basic
scalars, or a value of any other type. -/
inductive LineArgument where
  | scalar (x : String)
  | vector (x : List String)
  | other
  deriving DecidableEq, Repr

/-- The three overloads of `LineIOSegment::addVariable`, called by `operator,`. The result is
the segment after the call and the exception thrown, if any. -/
def LineIOSegment.addVariable (s : LineIOSegment) :
    LineArgument → LineIOSegment × Option IOFormatException
  | .scalar x => ({ s with vars := s.vars ++ [.Scalar x] }, none)
  | .vector x => ({ s with vars := s.vars ++ [.HorizontalVector x] }, none)
  | .other =>
    (s, some
      ⟨"Line segment is only supported for basic scalar and vector of basic scalars types"⟩)

/-! ## `LinesIOSegment` -/

/-- A Lines segment: `description` and the member `variables` (`vars`). -/
structure LinesIOSegment where
  description : String
  vars : List VerticalVariable
  deriving DecidableEq, Repr

/-- The loop `for (int i = 1; i < variables.size(); i++)` of `LinesIOSegment::isValidSegment`.
The first numeric argument counts the iterations still to run (`variables.size() - i`), the
second is `i`. `none` when `variables[i]` is out of range. -/
def LinesIOSegment.isValidSegmentLoop (vars : List VerticalVariable) (linesSize : Nat) :
    Nat → Nat → Option Bool
  | 0, _ => some true
  | n + 1, i =>
    match vars[i]? with
    | none => none
    | some var =>
      if var.size != linesSize then some false
      else LinesIOSegment.isValidSegmentLoop vars linesSize n (i + 1)

/-- `LinesIOSegment::isValidSegment`; `none` when `variables[0]` does not exist. -/
def LinesIOSegment.isValidSegment (vars : List VerticalVariable) : Option Bool :=
  match vars[0]? with
  | none => none
  | some var0 =>
    LinesIOSegment.isValidSegmentLoop vars var0.size (vars.length - 1) 1

/-- The inner range-for loop of `LinesIOSegment::printTo`: element `i` of each remaining
variable, with the current value of the local `first`. -/
def LinesIOSegment.printElements : List VerticalVariable → Nat → Bool → String → Option String
  | [], _, _, out => some out
  | var :: rest, i, first, out =>
    let out1 := if !first then out ++ " " else out
    match var.printElementTo i out1 with
    | none => none
    | some out2 => LinesIOSegment.printElements rest i false out2

/-- The outer loop `for (int i = 0; i < linesSize; i++)` of `LinesIOSegment::printTo`. The
first numeric argument counts the iterations still to run (`linesSize - i`), the second is
`i`. -/
def LinesIOSegment.printLines (vars : List VerticalVariable) :
    Nat → Nat → String → Option String
  | 0, _, out => some out
  | n + 1, i, out =>
    match LinesIOSegment.printElements vars i true out with
    | none => none
    | some out1 => LinesIOSegment.printLines vars n (i + 1) (out1 ++ "\n")

/-- `LinesIOSegment::printTo`. -/
def LinesIOSegment.printTo (s : LinesIOSegment) (out : String) : Outcome :=
  if s.vars.isEmpty then
    .thrown ⟨"Lines segment must have at least one variable"⟩ out
  else
    match LinesIOSegment.isValidSegment s.vars with
    | none => .outOfRange
    | some false =>
      .thrown ⟨"All vectors participating in a lines segment must have equal sizes"⟩ out
    | some true =>
      match s.vars[0]? with
      | none => .outOfRange
      | some var0 =>
        match LinesIOSegment.printLines s.vars var0.size 0 out with
        | none => .outOfRange
        | some out1 => .returned out1

/-- Row `i` of a Lines segment as the spec words it: element `i` of each vector, in
registration order, joined by single spaces and terminated by a newline. -/
def LinesIOSegment.row (vars : List VerticalVariable) (i : Nat) : String :=
  String.intercalate " " (vars.map fun v => v.value.getD i "") ++ "\n"

/-- Two of the vectors of a Lines segment differ in length. -/
def LinesIOSegment.UnequalSizes (s : LinesIOSegment) : Prop :=
  ∃ v ∈ s.vars, ∃ w ∈ s.vars, v.size ≠ w.size

/-- What `operator,` of a Lines segment can be applied to: a vector of basic scalars, or a
value of any other type. -/
inductive LinesArgument where
  | vector (x : List String)
  | other
  deriving DecidableEq, Repr

/-- The two overloads of `LinesIOSegment::addVariable`, called by `operator,`. The result is
the segment after the call and the exception thrown, if any. -/
def LinesIOSegment.addVariable (s : LinesIOSegment) :
    LinesArgument → LinesIOSegment × Option IOFormatException
  | .vector x => ({ s with vars := s.vars ++ [⟨x⟩] }, none)
  | .other => (s, some ⟨"Lines segment is only supported for vector of basic scalars types"⟩)

/-! ## `GridIOSegment` -/

/-- A Grid segment: `description`, the member `variable` (`var`, `none` for `nullptr`) and
`hasSpaces`. -/
structure GridIOSegment where
  description : String
  var : Option MatrixVariable
  hasSpaces : Bool
  deriving DecidableEq, Repr

/-- The constructor `GridIOSegment(description)`. -/
def GridIOSegment.init (description : String) : GridIOSegment :=
  { description := description, var := none, hasSpaces := false }

/-- What `operator,` of a Grid segment can be applied to: a matrix of basic scalars other than
`char` (`vector<vector<T>>`), a matrix of `char`, or a value of any other type. -/
inductive GridArgument where
  | scalarMatrix (x : List (List String))
  | charMatrix (x : List (List Char))
  | other
  deriving DecidableEq, Repr

/-- The three overloads of `GridIOSegment::setVariable`. The result is the segment after the
call and the exception thrown, if any. A `char` cell prints as that one character. -/
def GridIOSegment.setVariable (s : GridIOSegment) :
    GridArgument → GridIOSegment × Option IOFormatException
  | .scalarMatrix x => ({ s with var := some ⟨x⟩, hasSpaces := true }, none)
  | .charMatrix x => ({ s with var := some ⟨x.map fun row => row.map String.singleton⟩ }, none)
  | .other =>
    (s, some ⟨"Grid segment is only supported for matrix of basic scalars types"⟩)

/-- `GridIOSegment::operator,`. The result is the segment after the call and the exception
thrown, if any. -/
def GridIOSegment.comma (s : GridIOSegment) (x : GridArgument) :
    GridIOSegment × Option IOFormatException :=
  if s.var.isSome then
    (s, some ⟨"Grid segment must have exactly one variable"⟩)
  else
    s.setVariable x

/-- The loop `for (int i = 0; i < variable->rowsSize(); i++)` of
`GridIOSegment::isValidSegment`. The first numeric argument counts the iterations still to run
(`rowsSize() - i`), the second is `i`. -/
def GridIOSegment.isValidSegmentLoop (m : MatrixVariable) (columnsSize : Nat) :
    Nat → Nat → Option Bool
  | 0, _ => some true
  | n + 1, i =>
    match m.columnsSize i with
    | none => none
    | some c =>
      if c != columnsSize then some false
      else GridIOSegment.isValidSegmentLoop m columnsSize n (i + 1)

/-- `GridIOSegment::isValidSegment`, on the matrix `variable` points to. -/
def GridIOSegment.isValidSegment (m : MatrixVariable) : Option Bool :=
  if m.rowsSize == 0 then some true
  else
    match m.columnsSize 0 with
    | none => none
    | some columnsSize => GridIOSegment.isValidSegmentLoop m columnsSize m.rowsSize 0

/-- The inner loop `for (int j = 0; j < variable->columnsSize(i); j++)` of
`GridIOSegment::printTo`. The first numeric argument counts the iterations still to run
(`columnsSize(i) - j`), the second is `j`. -/
def GridIOSegment.printCells (m : MatrixVariable) (hasSpaces : Bool) (i : Nat) :
    Nat → Nat → String → Option String
  | 0, _, out => some out
  | n + 1, j, out =>
    let out1 := if decide (j > 0) && hasSpaces then out ++ " " else out
    match m.printElementTo i j out1 with
    | none => none
    | some out2 => GridIOSegment.printCells m hasSpaces i n (j + 1) out2

/-- The outer loop `for (int i = 0; i < variable->rowsSize(); i++)` of
`GridIOSegment::printTo`. The first numeric argument counts the iterations still to run
(`rowsSize() - i`), the second is `i`. -/
def GridIOSegment.printRows (m : MatrixVariable) (hasSpaces : Bool) :
    Nat → Nat → String → Option String
  | 0, _, out => some out
  | n + 1, i, out =>
    match m.columnsSize i with
    | none => none
    | some c =>
      match GridIOSegment.printCells m hasSpaces i c 0 out with
      | none => none
      | some out1 => GridIOSegment.printRows m hasSpaces n (i + 1) (out1 ++ "\n")

/-- `GridIOSegment::printTo`. -/
def GridIOSegment.printTo (s : GridIOSegment) (out : String) : Outcome :=
  match s.var with
  | none => .thrown ⟨"Grid segment must have exactly one variable"⟩ out
  | some m =>
    match GridIOSegment.isValidSegment m with
    | none => .outOfRange
    | some false =>
      .thrown ⟨"Each row of the matrix in a grid segment must have equal number of columns"⟩ out
    | some true =>
      match GridIOSegment.printRows m s.hasSpaces m.rowsSize 0 out with
      | none => .outOfRange
      | some out1 => .returned out1

/-- Two rows of the matrix differ in their number of columns. -/
def MatrixVariable.UnequalColumns (m : MatrixVariable) : Prop :=
  ∃ r1 ∈ m.value, ∃ r2 ∈ m.value, r1.length ≠ r2.length

instance (m : MatrixVariable) : Decidable m.UnequalColumns := by
  unfold MatrixVariable.UnequalColumns
  infer_instance

/-- The text written between two cells of a row: one space when `hasSpaces`, nothing
otherwise. -/
def GridIOSegment.separator (hasSpaces : Bool) : String :=
  if hasSpaces then " " else ""

/-- A row of a Grid segment as the spec words it: its cells joined by the separator and
terminated by a newline. -/
def GridIOSegment.rowText (hasSpaces : Bool) (row : List String) : String :=
  String.intercalate (GridIOSegment.separator hasSpaces) row ++ "\n"

/-! ## `IOSegment` and `IOFormat` -/

/-- The three classes deriving from `IOSegment`. -/
inductive IOSegment where
  | line (s : LineIOSegment)
  | lines (s : LinesIOSegment)
  | grid (s : GridIOSegment)
  deriving DecidableEq, Repr

/-- The virtual `IOSegment::printTo`. -/
def IOSegment.printTo : IOSegment → String → Outcome
  | .line s, out => s.printTo out
  | .lines s, out => s.printTo out
  | .grid s, out => s.printTo out

/-- The segments created with `new`, in allocation order. An `IOSegment*` is a position in
this list. -/
abbrev Heap := List IOSegment

/-- An `IOFormat`: the vector `segments` of `IOSegment*`. -/
structure IOFormat where
  segments : List Nat
  deriving DecidableEq, Repr

/-- A default-constructed `IOFormat`. -/
def IOFormat.init : IOFormat :=
  { segments := [] }

/-- `IOFormat::addSegment`. -/
def IOFormat.addSegment (f : IOFormat) (segment : Nat) : IOFormat :=
  { segments := f.segments ++ [segment] }

/-- The range-for loop of `IOFormat::printTo` over the remaining segments. An exception thrown
by a segment leaves the loop; `outOfRange` when a pointer is not in the heap. -/
def IOFormat.printSegments (heap : Heap) : List Nat → String → Outcome
  | [], out => .returned out
  | segment :: rest, out =>
    match heap[segment]? with
    | none => .outOfRange
    | some s =>
      match s.printTo out with
      | .returned out1 => IOFormat.printSegments heap rest out1
      | .thrown e out1 => .thrown e out1
      | .outOfRange => .outOfRange

/-- `IOFormat::printTo`. -/
def IOFormat.printTo (heap : Heap) (f : IOFormat) (out : String) : Outcome :=
  IOFormat.printSegments heap f.segments out

/-- What the segment behind a pointer writes when it prints successfully (the empty text
otherwise). -/
def IOFormat.written (heap : Heap) (segment : Nat) : String :=
  match heap[segment]? with
  | none => ""
  | some s =>
    match s.printTo "" with
    | .returned o => o
    | _ => ""

/-! ## `IOFormatsCollector` -/

/-- The enum `IOMode`. -/
inductive IOMode where
  | INPUT
  | OUTPUT
  deriving DecidableEq, Repr

/-- An `IOFormatsCollector`: the array `formats` indexed by mode, the current `mode`, and the
heap of the segments it has created. -/
structure IOFormatsCollector where
  heap : Heap
  formats : IOMode → IOFormat
  mode : IOMode

/-- The constructor `IOFormatsCollector()`. -/
def IOFormatsCollector.init : IOFormatsCollector :=
  { heap := [], formats := fun _ => IOFormat.init, mode := .INPUT }

/-- `IOFormatsCollector::setMode`. -/
def IOFormatsCollector.setMode (c : IOFormatsCollector) (mode : IOMode) : IOFormatsCollector :=
  { c with mode := mode }

/-- The two statements shared by the three `add...Segment` methods: `new` puts the segment in
the heap and `formats[mode]->addSegment(segment)` records its pointer. The result is the
collector after the call and the pointer to the new segment. -/
def IOFormatsCollector.addNew (c : IOFormatsCollector) (s : IOSegment) :
    IOFormatsCollector × Nat :=
  let segment := c.heap.length
  ({ c with
      heap := c.heap ++ [s],
      formats := fun m => if m = c.mode then (c.formats m).addSegment segment else c.formats m },
    segment)

/-- `IOFormatsCollector::addLineSegment`. -/
def IOFormatsCollector.addLineSegment (c : IOFormatsCollector) (description : String) :
    IOFormatsCollector × Nat :=
  c.addNew (.line { description := description, vars := [] })

/-- `IOFormatsCollector::addLinesSegment`. -/
def IOFormatsCollector.addLinesSegment (c : IOFormatsCollector) (description : String) :
    IOFormatsCollector × Nat :=
  c.addNew (.lines { description := description, vars := [] })

/-- `IOFormatsCollector::addGridSegment`. -/
def IOFormatsCollector.addGridSegment (c : IOFormatsCollector) (description : String) :
    IOFormatsCollector × Nat :=
  c.addNew (.grid (GridIOSegment.init description))

/-- `IOFormatsCollector::collectFormat`. -/
def IOFormatsCollector.collectFormat (c : IOFormatsCollector) (mode : IOMode) : IOFormat :=
  c.formats mode

/-- One call made on a collector by its user. -/
inductive CollectorCall where
  | setMode (mode : IOMode)
  | addLineSegment (description : String)
  | addLinesSegment (description : String)
  | addGridSegment (description : String)
  deriving DecidableEq, Repr

/-- The collector after one call. -/
def IOFormatsCollector.call (c : IOFormatsCollector) : CollectorCall → IOFormatsCollector
  | .setMode mode => c.setMode mode
  | .addLineSegment description => (c.addLineSegment description).1
  | .addLinesSegment description => (c.addLinesSegment description).1
  | .addGridSegment description => (c.addGridSegment description).1

/-- The collector after a sequence of calls. -/
def IOFormatsCollector.run (c : IOFormatsCollector) (calls : List CollectorCall) :
    IOFormatsCollector :=
  calls.foldl IOFormatsCollector.call c

/-- The segment a call creates, if it creates one. -/
def CollectorCall.created : CollectorCall → Option IOSegment
  | .setMode _ => none
  | .addLineSegment description => some (.line { description := description, vars := [] })
  | .addLinesSegment description => some (.lines { description := description, vars := [] })
  | .addGridSegment description => some (.grid (GridIOSegment.init description))

/-- The spec's reading of a call sequence: the pointers of the segments added while the mode was
`target`, in the order added. `mode` is the mode before the first call of the list and `next`
the number of segments created before it. -/
def CollectorCall.addedWhile (target : IOMode) : List CollectorCall → IOMode → Nat → List Nat
  | [], _, _ => []
  | .setMode m :: rest, _, next => CollectorCall.addedWhile target rest m next
  | _ :: rest, mode, next =>
    (if mode = target then [next] else []) ++
      CollectorCall.addedWhile target rest mode (next + 1)

/-! ## `MultipleTestCasesConstraintsVerificationResult` -/

/-- A `std::set<string>`, held as the list of its elements in iteration order. -/
structure StringSet where
  elems : List String
  deriving DecidableEq, Repr

/-- A default-constructed `set<string>`. -/
def StringSet.init : StringSet :=
  { elems := [] }

/-- Insertion into the iteration order of a `set<string>`: `d` goes before the first element
that is not less than it, and is dropped when that element equals it. Strings are compared as
`std::string` compares them, lexicographically on their characters. -/
def StringSet.insertInto (d : String) : List String → List String
  | [] => [d]
  | x :: rest =>
    if d.toList < x.toList then d :: x :: rest
    else if x.toList < d.toList then x :: StringSet.insertInto d rest
    else x :: rest

/-- `set<string>::insert`. -/
def StringSet.insert (s : StringSet) (d : String) : StringSet :=
  { elems := StringSet.insertInto d s.elems }

/-- The `set<string>` built from descriptions given in any order and with repetitions. -/
def StringSet.ofList (ds : List String) : StringSet :=
  ds.foldl StringSet.insert StringSet.init

/-- `set<string>::empty`. -/
def StringSet.empty (s : StringSet) : Bool :=
  s.elems.isEmpty

/-- Modelled from the spec: `FormattedError` of `tcframe/spec/exception.hpp`, which is not
among the sources; it wraps the list of (indent, text) messages it is constructed from. -/
structure FormattedError where
  messages : List (Int × String)
  deriving DecidableEq, Repr

/-- The struct `MultipleTestCasesConstraintsVerificationResult`. -/
structure MultipleTestCasesConstraintsVerificationResult where
  unsatisfiedConstraintDescriptions : StringSet
  deriving DecidableEq, Repr

/-- The default constructor of `MultipleTestCasesConstraintsVerificationResult`. -/
def MultipleTestCasesConstraintsVerificationResult.init :
    MultipleTestCasesConstraintsVerificationResult :=
  { unsatisfiedConstraintDescriptions := StringSet.init }

/-- `MultipleTestCasesConstraintsVerificationResult::isValid`. -/
def MultipleTestCasesConstraintsVerificationResult.isValid
    (r : MultipleTestCasesConstraintsVerificationResult) : Bool :=
  r.unsatisfiedConstraintDescriptions.empty

/-- The range-for loop of `asFormattedError`: one `emplace_back(1, description)` per remaining
element of the set. -/
def MultipleTestCasesConstraintsVerificationResult.appendDescriptions :
    List String → List (Int × String) → List (Int × String)
  | [], messages => messages
  | d :: rest, messages =>
    MultipleTestCasesConstraintsVerificationResult.appendDescriptions rest (messages ++ [(1, d)])

/-- `MultipleTestCasesConstraintsVerificationResult::asFormattedError`. -/
def MultipleTestCasesConstraintsVerificationResult.asFormattedError
    (r : MultipleTestCasesConstraintsVerificationResult) : FormattedError :=
  { messages :=
      MultipleTestCasesConstraintsVerificationResult.appendDescriptions
        r.unsatisfiedConstraintDescriptions.elems [(0, "Does not satisfy constraints, on:")] }

/-! ## Writes of `LineIOSegment::printTo`, in order -/

/-- One step of `LineIOSegment::printTo` that writes to the stream: `variable->printTo(out)`,
`out << " "` or `out << "\n"`. -/
inductive LineWrite where
  | variablePrintTo (var : HorizontalVariable)
  | space
  | newline
  deriving DecidableEq, Repr

/-- What one write does to the stream. -/
def LineWrite.apply : LineWrite → String → String
  | .variablePrintTo var, out => var.printTo out
  | .space, out => out ++ " "
  | .newline, out => out ++ "\n"

/-- The range-for loop of `LineIOSegment::printTo`, recording the writes it performs instead of
performing them: `log` holds the writes made so far. -/
def LineIOSegment.writesOfVariables : List HorizontalVariable → Bool → List LineWrite →
    List LineWrite
  | [], _, log => log
  | var :: rest, first, log =>
    let log1 := if !first then log ++ [.space] else log
    LineIOSegment.writesOfVariables rest false (log1 ++ [.variablePrintTo var])

/-- The writes `LineIOSegment::printTo` performs, in order. -/
def LineIOSegment.writes (s : LineIOSegment) : List LineWrite :=
  LineIOSegment.writesOfVariables s.vars true [] ++ [.newline]

/-! ## Text format of the output -/

/-- A token: a non-empty text with no space and no newline in it. -/
def IsToken (t : String) : Prop :=
  t ≠ "" ∧ ' ' ∉ t.data ∧ '\n' ∉ t.data

instance (t : String) : Decidable (IsToken t) := by
  unfold IsToken
  infer_instance

/-- The scan behind `obeysTextFormat`: `prev` is the character before the rest of the text, a
newline at the start of the text. A space may not follow a space or start a line, and a
newline may not follow a space. -/
def spacingFrom : Char → List Char → Bool
  | _, [] => true
  | prev, c :: rest =>
    !(c == ' ' && (prev == ' ' || prev == '\n')) && !(prev == ' ' && c == '\n') &&
      spacingFrom c rest

/-- The text format of the spec, on the characters of an output: never two spaces in a row,
never a space at the start of a line, never a space right before a newline. -/
def obeysTextFormat (o : String) : Bool :=
  spacingFrom '\n' o.data

/-- A text that is empty or ends with a newline. -/
def EndsWithNewline (cs : List Char) : Prop :=
  cs = [] ∨ cs.getLast? = some '\n'

/-- A text made of complete lines that obey the text format. -/
def IsLines (cs : List Char) : Prop :=
  spacingFrom '\n' cs = true ∧ EndsWithNewline cs

/-- The rendered elements of a segment: the values of its scalars and the elements of its
vectors or of its matrix. -/
def IOSegment.elements : IOSegment → List String
  | .line s => s.vars.flatMap HorizontalVariable.tokens
  | .lines s => s.vars.flatMap VerticalVariable.value
  | .grid s =>
    match s.var with
    | none => []
    | some m => m.value.flatten

/-- No vector registered in a Line segment is empty (nothing is asked of Lines and Grid
segments). -/
def IOSegment.NoEmptyVector : IOSegment → Prop
  | .line s => ∀ v ∈ s.vars, v.tokens ≠ []
  | .lines _ => True
  | .grid _ => True

instance (s : IOSegment) : Decidable s.NoEmptyVector := by
  cases s <;> unfold IOSegment.NoEmptyVector <;> infer_instance

/-- The logical rows of a segment: 1 for a Line segment, the length of the first vector for a
Lines segment, the number of rows of the matrix for a Grid segment. -/
def IOSegment.rows : IOSegment → Nat
  | .line _ => 1
  | .lines s =>
    match s.vars with
    | [] => 0
    | var0 :: _ => var0.size
  | .grid s =>
    match s.var with
    | none => 0
    | some m => m.rowsSize

/-- The segments of a format: the objects its pointers point to, in order. -/
def IOFormat.segmentsOf (heap : Heap) (f : IOFormat) : List IOSegment :=
  f.segments.filterMap fun p => heap[p]?

/-! ## `io/LineIOSegment.hpp` -/

/-- Modelled from the spec: the enum `IOSegmentType` of `io/IOSegment.hpp`, which is not among
the sources; one value per kind of segment ("Line, Lines, Grid"). -/
inductive io.IOSegmentType where
  | LINE
  | LINES
  | GRID
  deriving DecidableEq, Repr

/-- Modelled from the spec: `LineIOSegmentScalarVariable` of
`io/LineIOSegmentScalarVariable.hpp`, which is not among the sources: the adapter constructed
from a `Scalar*`, holding that pointer. A `Scalar*` is an address. -/
structure io.LineIOSegmentScalarVariable where
  scalar : Nat
  deriving DecidableEq, Repr

/-- The struct `LineIOSegment` of `io/LineIOSegment.hpp`: the vector `variables_` of
`LineIOSegmentVariable*`, each the position of its object in `Memory.lineVariables`. -/
structure io.LineIOSegment where
  variables_ : List Nat
  deriving DecidableEq, Repr

/-- `LineIOSegment::type`. -/
def io.LineIOSegment.type (_s : io.LineIOSegment) : io.IOSegmentType :=
  .LINE

/-- `LineIOSegment::variables`. -/
def io.LineIOSegment.variables (s : io.LineIOSegment) : List Nat :=
  s.variables_

/-- `LineIOSegment::operator==`: `tie(variables_) == tie(o.variables_)` compares the two
vectors element by element, and their elements are pointers. -/
def io.LineIOSegment.operatorEq (s o : io.LineIOSegment) : Bool :=
  decide (s.variables_ = o.variables_)

/-- The objects created with `new` by `LineIOSegmentBuilder`, in allocation order: the
segments and the adapters. A pointer is the position of its object. -/
structure io.Memory where
  segments : List io.LineIOSegment
  lineVariables : List io.LineIOSegmentScalarVariable
  deriving DecidableEq, Repr

/-- The memory before anything is allocated. -/
def io.Memory.init : io.Memory :=
  { segments := [], lineVariables := [] }

/-- The class `LineIOSegmentBuilder`: the pointer `subject_`. -/
structure io.LineIOSegmentBuilder where
  subject_ : Nat
  deriving DecidableEq, Repr

/-- The constructor `LineIOSegmentBuilder()`: `subject_(new LineIOSegment())`. The result is
the memory after the call and the builder. -/
def io.LineIOSegmentBuilder.init (mem : io.Memory) : io.Memory × io.LineIOSegmentBuilder :=
  ({ mem with segments := mem.segments ++ [{ variables_ := [] }] },
    { subject_ := mem.segments.length })

/-- `LineIOSegmentBuilder::addScalarVariable`: `new LineIOSegmentScalarVariable(variable)` is
pushed onto `subject_->variables_`. The result is the memory after the call and the builder
(`return *this`); `none` when `subject_` points to no segment. -/
def io.LineIOSegmentBuilder.addScalarVariable (b : io.LineIOSegmentBuilder) (mem : io.Memory)
    (var : Nat) : Option (io.Memory × io.LineIOSegmentBuilder) :=
  match mem.segments[b.subject_]? with
  | none => none
  | some subject =>
    some
      ({ segments :=
          mem.segments.set b.subject_
            { variables_ := subject.variables_ ++ [mem.lineVariables.length] },
         lineVariables := mem.lineVariables ++ [{ scalar := var }] },
        b)

/-- `LineIOSegmentBuilder::build`. -/
def io.LineIOSegmentBuilder.build (b : io.LineIOSegmentBuilder) : Nat :=
  b.subject_

/-- A chain of `addScalarVariable` calls on a builder, one per scalar of the list. -/
def io.LineIOSegmentBuilder.addScalarVariables :
    List Nat → io.LineIOSegmentBuilder → io.Memory →
      Option (io.Memory × io.LineIOSegmentBuilder)
  | [], b, mem => some (mem, b)
  | var :: rest, b, mem =>
    match b.addScalarVariable mem var with
    | none => none
    | some (mem1, b1) => io.LineIOSegmentBuilder.addScalarVariables rest b1 mem1

/-- The expression `LineIOSegmentBuilder().addScalarVariable(v1)...addScalarVariable(vn)
.build()`: the memory after it and the pointer it returns. -/
def io.buildLine (mem : io.Memory) (scalars : List Nat) : Option (io.Memory × Nat) :=
  match io.LineIOSegmentBuilder.addScalarVariables scalars (io.LineIOSegmentBuilder.init mem).2
      (io.LineIOSegmentBuilder.init mem).1 with
  | none => none
  | some (mem1, b1) => some (mem1, b1.build)

/-- Two builder runs, one after the other, and `*first == *second` on the segments they
return. -/
def io.buildTwoAndCompare (scalars1 scalars2 : List Nat) : Option Bool :=
  match io.buildLine io.Memory.init scalars1 with
  | none => none
  | some (mem1, p1) =>
    match io.buildLine mem1 scalars2 with
    | none => none
    | some (mem2, p2) =>
      match mem2.segments[p1]?, mem2.segments[p2]? with
      | some s1, some s2 => some (s1.operatorEq s2)
      | _, _ => none

/-! ## Text helpers -/

theorem foldl_append_eq (l : List String) (acc : String) :
    l.foldl (fun r s => r ++ s) acc = acc ++ l.foldl (fun r s => r ++ s) "" := by
  induction l generalizing acc with
  | nil => simp
  | cons a l ih =>
    simp only [List.foldl_cons, String.empty_append]
    rw [ih (acc ++ a), ih a, String.append_assoc]

theorem join_nil : String.join [] = "" := rfl

theorem join_cons (a : String) (l : List String) :
    String.join (a :: l) = a ++ String.join l := by
  unfold String.join
  simp only [List.foldl_cons, String.empty_append]
  exact foldl_append_eq l a

theorem join_append (l₁ l₂ : List String) :
    String.join (l₁ ++ l₂) = String.join l₁ ++ String.join l₂ := by
  induction l₁ with
  | nil => simp [join_nil]
  | cons a l ih => simp [join_cons, ih, String.append_assoc]

theorem intercalate_go_eq (sep : String) (l : List String) (acc : String) :
    String.intercalate.go acc sep l = acc ++ String.join (l.map fun a => sep ++ a) := by
  induction l generalizing acc with
  | nil => simp [String.intercalate.go, join_nil]
  | cons a l ih =>
    simp only [String.intercalate.go, List.map_cons, join_cons]
    rw [ih]
    simp only [String.append_assoc]

theorem intercalate_nil (sep : String) : String.intercalate sep [] = "" := rfl

theorem intercalate_cons (sep a : String) (l : List String) :
    String.intercalate sep (a :: l) = a ++ String.join (l.map fun b => sep ++ b) := by
  simp [String.intercalate, intercalate_go_eq]

/-! ## `LinesIOSegment`: printing -/

/-- Element `i` of a bound vector, as text (empty when there is no such element). -/
theorem VerticalVariable.printElementTo_of_lt (v : VerticalVariable) (i : Nat) (out : String)
    (h : i < v.value.length) :
    v.printElementTo i out = some (out ++ v.value.getD i "") := by
  simp [VerticalVariable.printElementTo, List.getElem?_eq_getElem h, List.getD_eq_getElem _ _ h]

theorem LinesIOSegment.lines_isValidSegmentLoop_eq (vars : List VerticalVariable) (L : Nat)
    (n i : Nat) (hn : i + n = vars.length) :
    LinesIOSegment.isValidSegmentLoop vars L n i =
      some (decide (∀ v ∈ vars.drop i, v.size = L)) := by
  induction n generalizing i with
  | zero =>
    have : vars.drop i = [] := List.drop_eq_nil_of_le (by omega)
    simp [LinesIOSegment.isValidSegmentLoop, this]
  | succ n ih =>
    have hi : i < vars.length := by omega
    have hd := List.drop_eq_getElem_cons hi
    simp only [LinesIOSegment.isValidSegmentLoop, List.getElem?_eq_getElem hi]
    by_cases hsize : vars[i].size = L
    · rw [if_neg (by simp [hsize]), ih (i + 1) (by omega), hd]
      simp only [List.forall_mem_cons, hsize, true_and]
    · rw [if_pos (by simp [hsize]), hd]
      simp only [List.forall_mem_cons, hsize, false_and, decide_False]

theorem LinesIOSegment.lines_isValidSegment_cons (var0 : VerticalVariable)
    (rest : List VerticalVariable) :
    LinesIOSegment.isValidSegment (var0 :: rest) =
      some (decide (∀ v ∈ rest, v.size = var0.size)) := by
  have h := LinesIOSegment.lines_isValidSegmentLoop_eq (var0 :: rest) var0.size rest.length 1
    (by simp; omega)
  simpa [LinesIOSegment.isValidSegment] using h

theorem LinesIOSegment.printElements_false (vars : List VerticalVariable) (i : Nat)
    (hlen : ∀ v ∈ vars, i < v.value.length) (out : String) :
    LinesIOSegment.printElements vars i false out =
      some (out ++ String.join (vars.map fun v => " " ++ v.value.getD i "")) := by
  induction vars generalizing out with
  | nil => simp [LinesIOSegment.printElements, join_nil]
  | cons v rest ih =>
    have hv : i < v.value.length := hlen v (List.mem_cons_self _ _)
    have hrest : ∀ w ∈ rest, i < w.value.length := fun w hw => hlen w (List.mem_cons_of_mem _ hw)
    simp only [LinesIOSegment.printElements, Bool.not_false, if_true,
      VerticalVariable.printElementTo_of_lt v i _ hv, ih hrest, List.map_cons, join_cons,
      String.append_assoc]

theorem LinesIOSegment.printElements_true (vars : List VerticalVariable) (i : Nat)
    (hlen : ∀ v ∈ vars, i < v.value.length) (out : String) :
    LinesIOSegment.printElements vars i true out =
      some (out ++ String.intercalate " " (vars.map fun v => v.value.getD i "")) := by
  cases vars with
  | nil => simp [LinesIOSegment.printElements, intercalate_nil]
  | cons v rest =>
    have hv : i < v.value.length := hlen v (List.mem_cons_self _ _)
    have hrest : ∀ w ∈ rest, i < w.value.length := fun w hw => hlen w (List.mem_cons_of_mem _ hw)
    simp only [LinesIOSegment.printElements, Bool.not_true, Bool.false_eq_true, if_false,
      VerticalVariable.printElementTo_of_lt v i _ hv,
      LinesIOSegment.printElements_false rest i hrest, List.map_cons, intercalate_cons,
      List.map_map, Function.comp_def, String.append_assoc]

theorem LinesIOSegment.printLines_eq (vars : List VerticalVariable) (n i : Nat)
    (hlen : ∀ v ∈ vars, i + n ≤ v.value.length) (out : String) :
    LinesIOSegment.printLines vars n i out =
      some (out ++ String.join ((List.range' i n).map (LinesIOSegment.row vars))) := by
  induction n generalizing i out with
  | zero => simp [LinesIOSegment.printLines, join_nil]
  | succ n ih =>
    have h1 : ∀ v ∈ vars, i < v.value.length := fun v hv => by have := hlen v hv; omega
    have h2 : ∀ v ∈ vars, (i + 1) + n ≤ v.value.length := fun v hv => by
      have := hlen v hv; omega
    simp only [LinesIOSegment.printLines, LinesIOSegment.printElements_true vars i h1, ih _ h2,
      List.range'_succ, List.map_cons, join_cons, LinesIOSegment.row, String.append_assoc]

/-- The three ways `LinesIOSegment::printTo` ends. -/
theorem LinesIOSegment.printTo_cons (d : String) (var0 : VerticalVariable)
    (rest : List VerticalVariable) (out : String) :
    LinesIOSegment.printTo { description := d, vars := var0 :: rest } out =
      if ∀ v ∈ rest, v.size = var0.size then
        .returned (out ++
          String.join ((List.range var0.size).map (LinesIOSegment.row (var0 :: rest))))
      else
        .thrown ⟨"All vectors participating in a lines segment must have equal sizes"⟩ out := by
  simp only [LinesIOSegment.printTo, List.isEmpty_cons, Bool.false_eq_true, if_false,
    LinesIOSegment.lines_isValidSegment_cons, List.getElem?_cons_zero]
  by_cases h : ∀ v ∈ rest, v.size = var0.size
  · have hlines := LinesIOSegment.printLines_eq (var0 :: rest) var0.size 0
      (fun v hv => by
        rcases List.mem_cons.mp hv with rfl | hv
        · simp [VerticalVariable.size]
        · have := h v hv
          simp only [VerticalVariable.size] at this ⊢
          omega) out
    rw [if_pos h, decide_eq_true h]
    simp only [hlines, List.range_eq_range']
  · rw [if_neg h, decide_eq_false h]

theorem LinesIOSegment.unequalSizes_cons (d : String) (var0 : VerticalVariable)
    (rest : List VerticalVariable) :
    LinesIOSegment.UnequalSizes { description := d, vars := var0 :: rest } ↔
      ¬ ∀ v ∈ rest, v.size = var0.size := by
  constructor
  · rintro ⟨v, hv, w, hw, hne⟩ hall
    have hall2 : ∀ u ∈ var0 :: rest, u.size = var0.size := by
      intro u hu
      rcases List.mem_cons.mp hu with rfl | hu
      · rfl
      · exact hall u hu
    exact hne ((hall2 v hv).trans (hall2 w hw).symm)
  · intro h
    push_neg at h
    obtain ⟨v, hv, hne⟩ := h
    exact ⟨v, List.mem_cons_of_mem _ hv, var0, List.mem_cons_self _ _, hne⟩

/-- C1: a Lines segment with at least one vector, all of the same length `L` (possibly 0),
prints successfully and appends exactly `L` rows to the stream; row `i` is element `i` of each
vector in registration order, joined by single spaces and ended by one newline. -/
theorem LinesIOSegment.printTo_equal_sizes (s : LinesIOSegment) (L : Nat) (out : String)
    (hne : s.vars ≠ []) (hlen : ∀ v ∈ s.vars, v.value.length = L) :
    s.printTo out =
      .returned (out ++ String.join ((List.range L).map fun i =>
        String.intercalate " " (s.vars.map fun v => v.value.getD i "") ++ "\n")) := by
  obtain ⟨d, vars⟩ := s
  obtain ⟨var0, rest, rfl⟩ := List.exists_cons_of_ne_nil hne
  have h0 : var0.size = L := hlen var0 (List.mem_cons_self _ _)
  have hall : ∀ v ∈ rest, v.size = var0.size := fun v hv =>
    (hlen v (List.mem_cons_of_mem _ hv)).trans h0.symm
  rw [LinesIOSegment.printTo_cons, if_pos hall, h0]
  rfl

/-- C1, at the spec's example: the vectors `[1,2,3]` and `[4,5,6]`, registered in that order,
print as three rows. -/
theorem LinesIOSegment.printTo_equal_sizes_witness :
    (({ description := "lines", vars := [⟨["1", "2", "3"]⟩, ⟨["4", "5", "6"]⟩] } :
        LinesIOSegment).vars ≠ []) ∧
      (∀ v ∈ ({ description := "lines", vars := [⟨["1", "2", "3"]⟩, ⟨["4", "5", "6"]⟩] } :
        LinesIOSegment).vars, v.value.length = 3) ∧
      LinesIOSegment.printTo
          { description := "lines", vars := [⟨["1", "2", "3"]⟩, ⟨["4", "5", "6"]⟩] } "" =
        .returned "1 4\n2 5\n3 6\n" :=
  ⟨by decide, by decide,
    (LinesIOSegment.printTo_equal_sizes
      { description := "lines", vars := [⟨["1", "2", "3"]⟩, ⟨["4", "5", "6"]⟩] } 3 ""
      (by decide) (by decide)).trans (by decide)⟩

/-- C2: `LinesIOSegment::printTo` throws exactly when the segment has no vector or has two
vectors of different lengths; the message is "Lines segment must have at least one variable"
in the first case and "All vectors participating in a lines segment must have equal sizes" in
the second; whenever it throws, the stream is as it was before the call. -/
theorem LinesIOSegment.printTo_throws_iff (s : LinesIOSegment) (out : String) :
    ((∃ e o, s.printTo out = .thrown e o) ↔ (s.vars = [] ∨ s.UnequalSizes)) ∧
      (s.vars = [] →
        s.printTo out = .thrown ⟨"Lines segment must have at least one variable"⟩ out) ∧
      (s.vars ≠ [] → s.UnequalSizes →
        s.printTo out =
          .thrown ⟨"All vectors participating in a lines segment must have equal sizes"⟩ out) ∧
      (∀ e o, s.printTo out = .thrown e o → o = out) := by
  obtain ⟨d, vars⟩ := s
  cases vars with
  | nil =>
    refine ⟨?_, ?_, ?_, ?_⟩
    · simp [LinesIOSegment.printTo]
    · intro _; rfl
    · intro h; exact absurd rfl h
    · intro e o h
      simp only [LinesIOSegment.printTo, List.isEmpty_nil, if_true] at h
      injection h with _ h2
      exact h2.symm
  | cons var0 rest =>
    have hprint := LinesIOSegment.printTo_cons d var0 rest out
    have huneq := LinesIOSegment.unequalSizes_cons d var0 rest
    by_cases hall : ∀ v ∈ rest, v.size = var0.size
    · rw [if_pos hall] at hprint
      have hno : ¬ LinesIOSegment.UnequalSizes { description := d, vars := var0 :: rest } :=
        fun h => huneq.mp h hall
      refine ⟨?_, ?_, ?_, ?_⟩
      · simp [hprint, hno]
      · intro h; cases h
      · intro _ h; exact absurd h hno
      · intro e o h; rw [hprint] at h; cases h
    · rw [if_neg hall] at hprint
      have hyes : LinesIOSegment.UnequalSizes { description := d, vars := var0 :: rest } :=
        huneq.mpr hall
      refine ⟨?_, ?_, ?_, ?_⟩
      · simp [hprint, hyes]
      · intro h; cases h
      · intro _ _; exact hprint
      · intro e o h
        rw [hprint] at h
        injection h with _ h2
        exact h2.symm

/-- C2, at a segment with a vector of length 1 and a vector of length 0: the equal-sizes error
is thrown and the stream still holds only what it held before. -/
theorem LinesIOSegment.printTo_throws_iff_witness :
    LinesIOSegment.UnequalSizes { description := "lines", vars := [⟨["1"]⟩, ⟨[]⟩] } ∧
      LinesIOSegment.printTo { description := "lines", vars := [⟨["1"]⟩, ⟨[]⟩] } "x" =
        .thrown ⟨"All vectors participating in a lines segment must have equal sizes"⟩ "x" :=
  have h : LinesIOSegment.UnequalSizes { description := "lines", vars := [⟨["1"]⟩, ⟨[]⟩] } :=
    ⟨⟨["1"]⟩, by decide, ⟨[]⟩, by decide, by decide⟩
  ⟨h, (LinesIOSegment.printTo_throws_iff
    { description := "lines", vars := [⟨["1"]⟩, ⟨[]⟩] } "x").2.2.1 (by decide) h⟩

/-! ## `LineIOSegment`: printing -/

theorem HorizontalVariable.printTo_tokens (v : HorizontalVariable) (out : String) :
    v.printTo out = out ++ String.intercalate " " v.tokens := by
  cases v with
  | Scalar value =>
    simp [HorizontalVariable.printTo, HorizontalVariable.tokens, intercalate_cons, join_nil]
  | HorizontalVector value => rfl

theorem LineIOSegment.printVariables_false (vars : List HorizontalVariable) (out : String) :
    LineIOSegment.printVariables vars false out =
      out ++ String.join (vars.map fun v => " " ++ String.intercalate " " v.tokens) := by
  induction vars generalizing out with
  | nil => simp [LineIOSegment.printVariables, join_nil]
  | cons v rest ih =>
    simp only [LineIOSegment.printVariables, Bool.not_false, if_true,
      HorizontalVariable.printTo_tokens, ih, List.map_cons, join_cons, String.append_assoc]

theorem LineIOSegment.printVariables_true (vars : List HorizontalVariable) (out : String) :
    LineIOSegment.printVariables vars true out =
      out ++ String.intercalate " " (vars.map fun v => String.intercalate " " v.tokens) := by
  cases vars with
  | nil => simp [LineIOSegment.printVariables, intercalate_nil]
  | cons v rest =>
    simp only [LineIOSegment.printVariables, Bool.not_true, Bool.false_eq_true, if_false,
      HorizontalVariable.printTo_tokens, LineIOSegment.printVariables_false, List.map_cons,
      intercalate_cons, List.map_map, Function.comp_def, String.append_assoc]

/-- Joining the space-joined groups, each preceded by a space, is the same as preceding every
token by a space, as long as no group is empty. -/
theorem join_space_groups (groups : List (List String)) (h : ∀ g ∈ groups, g ≠ []) :
    String.join (groups.map fun g => " " ++ String.intercalate " " g) =
      String.join (groups.flatten.map fun t => " " ++ t) := by
  induction groups with
  | nil => rfl
  | cons g rest ih =>
    have hrest : ∀ g ∈ rest, g ≠ [] := fun g hg => h g (List.mem_cons_of_mem _ hg)
    cases g with
    | nil => exact absurd rfl (h [] (List.mem_cons_self _ _))
    | cons t ts =>
      simp only [List.map_cons, join_cons, List.flatten_cons, List.cons_append, List.map_append,
        join_append, intercalate_cons, ih hrest, String.append_assoc]

theorem intercalate_space_groups (groups : List (List String)) (h : ∀ g ∈ groups, g ≠ []) :
    String.intercalate " " (groups.map fun g => String.intercalate " " g) =
      String.intercalate " " groups.flatten := by
  cases groups with
  | nil => rfl
  | cons g rest =>
    have hrest : ∀ g ∈ rest, g ≠ [] := fun g hg => h g (List.mem_cons_of_mem _ hg)
    cases g with
    | nil => exact absurd rfl (h [] (List.mem_cons_self _ _))
    | cons t ts =>
      have hj := join_space_groups rest hrest
      simp only [List.map_map, Function.comp_def] at hj ⊢
      simp only [List.map_cons, List.flatten_cons, List.cons_append, intercalate_cons,
        List.map_append, join_append, List.map_map, Function.comp_def, hj,
        String.append_assoc]

/-- `LineIOSegment::printTo` returns, having appended the adapters' renderings joined by
single spaces and a newline. -/
theorem LineIOSegment.printTo_renderings (s : LineIOSegment) (out : String) :
    s.printTo out =
      .returned (out ++
        String.intercalate " " (s.vars.map fun v => String.intercalate " " v.tokens) ++
        "\n") := by
  simp only [LineIOSegment.printTo, LineIOSegment.printVariables_true]

/-- C3, as stated, fails: with an empty vector registered between two scalars the segment
prints two consecutive spaces, while the flat token list joined by single spaces has one. -/
theorem LineIOSegment.printTo_flat_tokens_counterexample :
    LineIOSegment.printTo
        { description := "line", vars := [.Scalar "1", .HorizontalVector [], .Scalar "2"] } "" =
      .returned "1  2\n" ∧
    String.intercalate " "
        (([.Scalar "1", .HorizontalVector [], .Scalar "2"] : List HorizontalVariable).flatMap
          HorizontalVariable.tokens) ++ "\n" = "1 2\n" ∧
    LineIOSegment.printTo
        { description := "line", vars := [.Scalar "1", .HorizontalVector [], .Scalar "2"] } "" ≠
      .returned (String.intercalate " "
        (([.Scalar "1", .HorizontalVector [], .Scalar "2"] : List HorizontalVariable).flatMap
          HorizontalVariable.tokens) ++ "\n") := by
  decide

/-- C3, amended: `LineIOSegment::printTo` never fails; it appends to the stream the renderings
of the adapters (a scalar's value; a vector's elements joined by single spaces, nothing for an
empty vector) joined by single spaces in registration order, then one newline. When no
registered vector is empty this is the flat token list of all adapters joined by single
spaces; with zero adapters it is just a newline. -/
theorem LineIOSegment.printTo_amended (s : LineIOSegment) (out : String) :
    s.printTo out =
        .returned (out ++
          String.intercalate " " (s.vars.map fun v => String.intercalate " " v.tokens) ++
          "\n") ∧
      ((∀ v ∈ s.vars, v.tokens ≠ []) →
        s.printTo out =
          .returned (out ++ String.intercalate " " (s.vars.flatMap HorizontalVariable.tokens) ++
            "\n")) ∧
      (s.vars = [] → s.printTo out = .returned (out ++ "\n")) := by
  have h1 := LineIOSegment.printTo_renderings s out
  refine ⟨h1, ?_, ?_⟩
  · intro hne
    have hg := intercalate_space_groups (s.vars.map HorizontalVariable.tokens)
      (by simpa using hne)
    simp only [List.map_map, Function.comp_def] at hg
    rw [h1, hg]
    rfl
  · intro hnil
    rw [h1, hnil]
    simp [intercalate_nil]

/-- C3, amended, at a segment of a scalar, a two-element vector and a scalar. -/
theorem LineIOSegment.printTo_amended_witness :
    (∀ v ∈ ({ description := "line",
                vars := [.Scalar "1", .HorizontalVector ["2", "3"], .Scalar "4"] } :
              LineIOSegment).vars, v.tokens ≠ []) ∧
      LineIOSegment.printTo
          { description := "line",
            vars := [.Scalar "1", .HorizontalVector ["2", "3"], .Scalar "4"] } "" =
        .returned "1 2 3 4\n" :=
  ⟨by decide,
    ((LineIOSegment.printTo_amended
      { description := "line",
        vars := [.Scalar "1", .HorizontalVector ["2", "3"], .Scalar "4"] } "").2.1
      (by decide)).trans (by decide)⟩

/-! ## `GridIOSegment`: validation and printing -/

theorem GridIOSegment.grid_isValidSegmentLoop_eq (m : MatrixVariable) (C : Nat) (n i : Nat)
    (hn : i + n = m.value.length) :
    GridIOSegment.isValidSegmentLoop m C n i =
      some (decide (∀ row ∈ m.value.drop i, row.length = C)) := by
  induction n generalizing i with
  | zero =>
    have : m.value.drop i = [] := List.drop_eq_nil_of_le (by omega)
    simp [GridIOSegment.isValidSegmentLoop, this]
  | succ n ih =>
    have hi : i < m.value.length := by omega
    have hd := List.drop_eq_getElem_cons hi
    simp only [GridIOSegment.isValidSegmentLoop, MatrixVariable.columnsSize,
      List.getElem?_eq_getElem hi]
    by_cases hsize : m.value[i].length = C
    · rw [if_neg (by simp [hsize]), ih (i + 1) (by omega), hd]
      simp only [List.forall_mem_cons, hsize, true_and]
    · rw [if_pos (by simp [hsize]), hd]
      simp only [List.forall_mem_cons, hsize, false_and, decide_False]

theorem GridIOSegment.isValidSegment_nil :
    GridIOSegment.isValidSegment ⟨[]⟩ = some true := rfl

theorem GridIOSegment.grid_isValidSegment_cons (row0 : List String) (rest : List (List String)) :
    GridIOSegment.isValidSegment ⟨row0 :: rest⟩ =
      some (decide (∀ row ∈ rest, row.length = row0.length)) := by
  have h := GridIOSegment.grid_isValidSegmentLoop_eq ⟨row0 :: rest⟩ row0.length (rest.length + 1) 0
    (by simp)
  simpa [GridIOSegment.isValidSegment, MatrixVariable.rowsSize, MatrixVariable.columnsSize]
    using h

/-- The separator `GridIOSegment::printTo` writes before every cell but the first of a row. -/
theorem GridIOSegment.printCells_pos (m : MatrixVariable) (hasSpaces : Bool) (i : Nat)
    (row : List String) (hrow : m.value[i]? = some row) (n j : Nat) (hj : 0 < j)
    (hn : j + n = row.length) (out : String) :
    GridIOSegment.printCells m hasSpaces i n j out =
      some (out ++ String.join ((row.drop j).map fun c => GridIOSegment.separator hasSpaces ++ c))
    := by
  induction n generalizing j out with
  | zero =>
    have : row.drop j = [] := List.drop_eq_nil_of_le (by omega)
    simp [GridIOSegment.printCells, this, join_nil]
  | succ n ih =>
    have hlt : j < row.length := by omega
    have hd := List.drop_eq_getElem_cons hlt
    have hsep : (if (decide (j > 0) && hasSpaces) = true then out ++ " " else out) =
        out ++ GridIOSegment.separator hasSpaces := by
      cases hasSpaces <;> simp [GridIOSegment.separator, hj]
    simp only [GridIOSegment.printCells, MatrixVariable.printElementTo, hrow,
      List.getElem?_eq_getElem hlt, hsep]
    rw [ih (j + 1) (by omega) (by omega), hd]
    simp only [List.map_cons, join_cons, String.append_assoc]

theorem GridIOSegment.printCells_zero (m : MatrixVariable) (hasSpaces : Bool) (i : Nat)
    (row : List String) (hrow : m.value[i]? = some row) (out : String) :
    GridIOSegment.printCells m hasSpaces i row.length 0 out =
      some (out ++ String.intercalate (GridIOSegment.separator hasSpaces) row) := by
  cases row with
  | nil => simp [GridIOSegment.printCells, intercalate_nil]
  | cons c cs =>
    have hnext := GridIOSegment.printCells_pos m hasSpaces i (c :: cs) hrow cs.length 1
      (by omega) (by simp; omega) (out ++ c)
    simp only [List.length_cons, GridIOSegment.printCells, MatrixVariable.printElementTo, hrow,
      gt_iff_lt, Nat.lt_irrefl, decide_False, Bool.false_and, Bool.false_eq_true, if_false,
      List.getElem?_cons_zero, Nat.zero_add, intercalate_cons]
    rw [hnext]
    simp [String.append_assoc]

theorem GridIOSegment.printRows_eq (m : MatrixVariable) (hasSpaces : Bool) (n i : Nat)
    (hn : i + n = m.value.length) (out : String) :
    GridIOSegment.printRows m hasSpaces n i out =
      some (out ++ String.join ((m.value.drop i).map (GridIOSegment.rowText hasSpaces))) := by
  induction n generalizing i out with
  | zero =>
    have : m.value.drop i = [] := List.drop_eq_nil_of_le (by omega)
    simp [GridIOSegment.printRows, this, join_nil]
  | succ n ih =>
    have hi : i < m.value.length := by omega
    have hd := List.drop_eq_getElem_cons hi
    have hrow : m.value[i]? = some m.value[i] := List.getElem?_eq_getElem hi
    simp only [GridIOSegment.printRows, MatrixVariable.columnsSize, hrow,
      GridIOSegment.printCells_zero m hasSpaces i _ hrow]
    rw [ih (i + 1) (by omega), hd]
    simp only [List.map_cons, join_cons, GridIOSegment.rowText, String.append_assoc]

/-- The three ways `GridIOSegment::printTo` ends on a segment with a bound matrix. -/
theorem GridIOSegment.printTo_bound (d : String) (m : MatrixVariable) (hasSpaces : Bool)
    (out : String) :
    GridIOSegment.printTo { description := d, var := some m, hasSpaces := hasSpaces } out =
      if m.UnequalColumns then
        .thrown
          ⟨"Each row of the matrix in a grid segment must have equal number of columns"⟩ out
      else
        .returned (out ++ String.join (m.value.map (GridIOSegment.rowText hasSpaces))) := by
  obtain ⟨rows⟩ := m
  have hrows := GridIOSegment.printRows_eq ⟨rows⟩ hasSpaces rows.length 0 (by simp) out
  cases rows with
  | nil =>
    have hno : ¬ MatrixVariable.UnequalColumns ⟨[]⟩ := by
      rintro ⟨r, hr, _⟩
      cases hr
    rw [if_neg hno]
    simp [GridIOSegment.printTo, GridIOSegment.isValidSegment_nil, MatrixVariable.rowsSize,
      GridIOSegment.printRows, join_nil]
  | cons row0 rest =>
    simp only [GridIOSegment.printTo, GridIOSegment.grid_isValidSegment_cons,
      MatrixVariable.rowsSize]
    by_cases hall : ∀ row ∈ rest, row.length = row0.length
    · have hall2 : ∀ row ∈ row0 :: rest, row.length = row0.length := by
        intro row hr
        rcases List.mem_cons.mp hr with rfl | hr
        · rfl
        · exact hall row hr
      have hno : ¬ MatrixVariable.UnequalColumns ⟨row0 :: rest⟩ := by
        rintro ⟨r1, h1, r2, h2, hne⟩
        exact hne ((hall2 r1 h1).trans (hall2 r2 h2).symm)
      rw [if_neg hno, decide_eq_true hall]
      simp only [hrows, List.drop_zero]
    · have hyes : MatrixVariable.UnequalColumns ⟨row0 :: rest⟩ := by
        push_neg at hall
        obtain ⟨r, hr, hne⟩ := hall
        exact ⟨r, List.mem_cons_of_mem _ hr, row0, List.mem_cons_self _ _, hne⟩
      rw [if_pos hyes, decide_eq_false hall]

theorem join_singletons (cs : List Char) :
    String.join (cs.map fun c => "" ++ String.singleton c) = String.mk cs := by
  induction cs with
  | nil => rfl
  | cons c cs ih =>
    rw [List.map_cons, join_cons, ih]
    apply String.ext
    simp [String.singleton]

theorem intercalate_singletons (cs : List Char) :
    String.intercalate "" (cs.map String.singleton) = String.mk cs := by
  cases cs with
  | nil => rfl
  | cons c cs =>
    rw [List.map_cons, intercalate_cons, List.map_map]
    have h := join_singletons cs
    simp only [Function.comp_def] at h ⊢
    rw [h]
    apply String.ext
    simp [String.singleton]

theorem MatrixVariable.not_unequalColumns_of_rectangular (rows : List (List String)) (C : Nat)
    (h : ∀ row ∈ rows, row.length = C) : ¬ MatrixVariable.UnequalColumns ⟨rows⟩ := by
  rintro ⟨r1, h1, r2, h2, hne⟩
  exact hne ((h r1 h1).trans (h r2 h2).symm)

/-- C4: a Grid segment bound to a rectangular `R x C` matrix prints successfully and appends
one line per row: the cells of the row joined by single spaces when the matrix was bound as a
scalar matrix, the cells concatenated with no separator when it was bound as a `char` matrix;
every line ends with one newline, also when `C = 0`. -/
theorem GridIOSegment.printTo_rectangular (d : String) (C : Nat) (out : String) :
    (∀ x : List (List String), (∀ row ∈ x, row.length = C) →
      ((GridIOSegment.init d).comma (.scalarMatrix x)).2 = none ∧
      ((GridIOSegment.init d).comma (.scalarMatrix x)).1.printTo out =
        .returned (out ++
          String.join (x.map fun row => String.intercalate " " row ++ "\n"))) ∧
    (∀ x : List (List Char), (∀ row ∈ x, row.length = C) →
      ((GridIOSegment.init d).comma (.charMatrix x)).2 = none ∧
      ((GridIOSegment.init d).comma (.charMatrix x)).1.printTo out =
        .returned (out ++ String.join (x.map fun row => String.mk row ++ "\n"))) := by
  constructor
  · intro x hx
    refine ⟨rfl, ?_⟩
    have hb := GridIOSegment.printTo_bound d ⟨x⟩ true out
    rw [if_neg (MatrixVariable.not_unequalColumns_of_rectangular x C hx)] at hb
    exact hb
  · intro x hx
    refine ⟨rfl, ?_⟩
    have hrect : ∀ row ∈ x.map (fun row => row.map String.singleton), row.length = C := by
      intro row hrow
      obtain ⟨r, hr, rfl⟩ := List.mem_map.mp hrow
      simpa using hx r hr
    have hb := GridIOSegment.printTo_bound d ⟨x.map fun row => row.map String.singleton⟩
      false out
    rw [if_neg (MatrixVariable.not_unequalColumns_of_rectangular _ C hrect)] at hb
    have htext : (x.map fun row => row.map String.singleton).map (GridIOSegment.rowText false) =
        x.map fun row => String.mk row ++ "\n" := by
      rw [List.map_map]
      apply List.map_congr_left
      intro row _
      simp only [Function.comp_def, GridIOSegment.rowText, GridIOSegment.separator,
        Bool.false_eq_true, if_false, intercalate_singletons]
    simp only [MatrixVariable.value] at hb
    rw [htext] at hb
    exact hb

/-- C4, at the spec's two examples: the `char` matrix `[[a,b],[c,d]]` and the scalar matrix
`[[1,2],[3,4]]`. -/
theorem GridIOSegment.printTo_rectangular_witness :
    (∀ row ∈ [["1", "2"], ["3", "4"]], row.length = 2) ∧
      (∀ row ∈ [['a', 'b'], ['c', 'd']], row.length = 2) ∧
      ((GridIOSegment.init "grid").comma (.scalarMatrix [["1", "2"], ["3", "4"]])).1.printTo "" =
        .returned "1 2\n3 4\n" ∧
      ((GridIOSegment.init "grid").comma (.charMatrix [['a', 'b'], ['c', 'd']])).1.printTo "" =
        .returned "ab\ncd\n" :=
  ⟨by decide, by decide,
    (((GridIOSegment.printTo_rectangular "grid" 2 "").1 [["1", "2"], ["3", "4"]]
      (by decide)).2).trans (by decide),
    (((GridIOSegment.printTo_rectangular "grid" 2 "").2 [['a', 'b'], ['c', 'd']]
      (by decide)).2).trans (by decide)⟩

/-- C5: on a Grid segment with a bound matrix, `printTo` throws exactly when two rows of the
matrix differ in their number of columns; the exception is then the shape error and the stream
is as it was before the call; a matrix with zero rows is valid and printing it writes
nothing. -/
theorem GridIOSegment.printTo_shape_error_iff (d : String) (m : MatrixVariable)
    (hasSpaces : Bool) (out : String) :
    ((∃ e o, GridIOSegment.printTo { description := d, var := some m, hasSpaces := hasSpaces }
        out = .thrown e o) ↔ m.UnequalColumns) ∧
      (m.UnequalColumns →
        GridIOSegment.printTo { description := d, var := some m, hasSpaces := hasSpaces } out =
          .thrown
            ⟨"Each row of the matrix in a grid segment must have equal number of columns"⟩
            out) ∧
      (∀ e o, GridIOSegment.printTo { description := d, var := some m, hasSpaces := hasSpaces }
          out = .thrown e o →
        e = ⟨"Each row of the matrix in a grid segment must have equal number of columns"⟩ ∧
          o = out) ∧
      (m.value = [] →
        GridIOSegment.printTo { description := d, var := some m, hasSpaces := hasSpaces } out =
          .returned out) := by
  have hb := GridIOSegment.printTo_bound d m hasSpaces out
  by_cases hu : m.UnequalColumns
  · rw [if_pos hu] at hb
    refine ⟨?_, fun _ => hb, ?_, ?_⟩
    · simp [hb, hu]
    · intro e o h
      rw [hb] at h
      injection h with h1 h2
      exact ⟨h1.symm, h2.symm⟩
    · intro hnil
      obtain ⟨r, hr, _⟩ := hu
      rw [hnil] at hr
      cases hr
  · rw [if_neg hu] at hb
    refine ⟨?_, fun h => absurd h hu, ?_, ?_⟩
    · simp [hb, hu]
    · intro e o h
      rw [hb] at h
      cases h
    · intro hnil
      rw [hb, hnil]
      simp [join_nil]

/-- C5, at a matrix whose rows have 2 and 1 columns: the shape error is thrown and the stream
still holds only what it held before. -/
theorem GridIOSegment.printTo_shape_error_iff_witness :
    MatrixVariable.UnequalColumns ⟨[["1", "2"], ["3"]]⟩ ∧
      GridIOSegment.printTo
          { description := "grid", var := some ⟨[["1", "2"], ["3"]]⟩, hasSpaces := true } "x" =
        .thrown ⟨"Each row of the matrix in a grid segment must have equal number of columns"⟩
          "x" :=
  ⟨by decide,
    (GridIOSegment.printTo_shape_error_iff "grid" ⟨[["1", "2"], ["3"]]⟩ true "x").2.1
      (by decide)⟩

/-- C6: a Grid segment accepts exactly one variable. A fresh segment has no matrix and its
first matrix binding succeeds; once a matrix is bound, every further `operator,` throws "Grid
segment must have exactly one variable" and leaves the segment (bound matrix and `hasSpaces`
included) unchanged; `printTo` on a segment with no matrix bound throws the same error and
leaves the stream as it was. -/
theorem GridIOSegment.exactly_one_variable (s : GridIOSegment) (x : GridArgument)
    (out : String) :
    (s.var ≠ none → s.comma x = (s, some ⟨"Grid segment must have exactly one variable"⟩)) ∧
      (s.var = none →
        s.printTo out = .thrown ⟨"Grid segment must have exactly one variable"⟩ out) ∧
      (∀ d, (GridIOSegment.init d).var = none) ∧
      (∀ d m, (GridIOSegment.init d).comma (.scalarMatrix m) =
        ({ description := d, var := some ⟨m⟩, hasSpaces := true }, none)) ∧
      (∀ d m, (GridIOSegment.init d).comma (.charMatrix m) =
        ({ description := d, var := some ⟨m.map fun row => row.map String.singleton⟩,
           hasSpaces := false }, none)) := by
  refine ⟨?_, ?_, fun _ => rfl, fun _ _ => rfl, fun _ _ => rfl⟩
  · intro h
    obtain ⟨d, var, hs⟩ := s
    cases var with
    | none => exact absurd rfl h
    | some m => rfl
  · intro h
    obtain ⟨d, var, hs⟩ := s
    cases h
    rfl

/-- C6, at a segment that already holds a matrix: binding a second one throws and changes
nothing; and a fresh segment refuses to print. -/
theorem GridIOSegment.exactly_one_variable_witness :
    (((GridIOSegment.init "grid").comma (.scalarMatrix [["1"]])).1.comma
        (.charMatrix [['a']]) =
      (((GridIOSegment.init "grid").comma (.scalarMatrix [["1"]])).1,
        some ⟨"Grid segment must have exactly one variable"⟩)) ∧
      (GridIOSegment.init "grid").printTo "x" =
        .thrown ⟨"Grid segment must have exactly one variable"⟩ "x" :=
  ⟨(GridIOSegment.exactly_one_variable
      ((GridIOSegment.init "grid").comma (.scalarMatrix [["1"]])).1 (.charMatrix [['a']])
      "").1 (by decide),
    (GridIOSegment.exactly_one_variable (GridIOSegment.init "grid") .other "x").2.1
      (by decide)⟩

/-! ## `IOFormat`: printing in order -/

/-- Whether a segment prints or throws does not depend on the stream it is given: it either
appends a fixed text to any stream, or throws a fixed exception leaving any stream as it
was. -/
theorem IOSegment.printTo_uniform (s : IOSegment) :
    (∃ o, ∀ out, s.printTo out = .returned (out ++ o)) ∨
      (∃ e, ∀ out, s.printTo out = .thrown e out) := by
  cases s with
  | line s =>
    left
    refine ⟨String.intercalate " " (s.vars.map fun v => String.intercalate " " v.tokens) ++
      "\n", fun out => ?_⟩
    rw [IOSegment.printTo, LineIOSegment.printTo_renderings s out, String.append_assoc]
  | lines s =>
    obtain ⟨d, vars⟩ := s
    cases vars with
    | nil => exact Or.inr ⟨_, fun out => rfl⟩
    | cons var0 rest =>
      by_cases h : ∀ v ∈ rest, v.size = var0.size
      · exact Or.inl ⟨_, fun out => by
          rw [IOSegment.printTo, LinesIOSegment.printTo_cons, if_pos h]⟩
      · exact Or.inr ⟨_, fun out => by
          rw [IOSegment.printTo, LinesIOSegment.printTo_cons, if_neg h]⟩
  | grid s =>
    obtain ⟨d, var, hs⟩ := s
    cases var with
    | none => exact Or.inr ⟨_, fun out => rfl⟩
    | some m =>
      by_cases h : m.UnequalColumns
      · exact Or.inr ⟨_, fun out => by
          rw [IOSegment.printTo, GridIOSegment.printTo_bound, if_pos h]⟩
      · exact Or.inl ⟨_, fun out => by
          rw [IOSegment.printTo, GridIOSegment.printTo_bound, if_neg h]⟩

theorem IOSegment.printTo_of_returned (s : IOSegment) (o out : String)
    (h : s.printTo "" = .returned o) : s.printTo out = .returned (out ++ o) := by
  rcases IOSegment.printTo_uniform s with ⟨o1, h1⟩ | ⟨e1, h1⟩
  · have h0 := h1 ""
    rw [h, String.empty_append] at h0
    injection h0 with h0
    rw [h1 out, h0]
  · rw [h1 ""] at h
    cases h

theorem IOSegment.printTo_of_thrown (s : IOSegment) (e : IOFormatException) (o out : String)
    (h : s.printTo "" = .thrown e o) : s.printTo out = .thrown e out := by
  rcases IOSegment.printTo_uniform s with ⟨o1, h1⟩ | ⟨e1, h1⟩
  · rw [h1 ""] at h
    cases h
  · have h0 := h1 ""
    rw [h] at h0
    injection h0 with h0 _
    rw [h1 out, h0]

theorem IOFormat.addSegment_foldl (segments : List Nat) (f : IOFormat) :
    (segments.foldl IOFormat.addSegment f).segments = f.segments ++ segments := by
  induction segments generalizing f with
  | nil => simp
  | cons p rest ih => simp [List.foldl_cons, ih, IOFormat.addSegment]

theorem IOFormat.printSegments_append (heap : Heap) (l1 l2 : List Nat) (out : String)
    (h : ∀ p ∈ l1, ∃ s o, heap[p]? = some s ∧ s.printTo "" = .returned o) :
    IOFormat.printSegments heap (l1 ++ l2) out =
      IOFormat.printSegments heap l2 (out ++ String.join (l1.map (IOFormat.written heap))) := by
  induction l1 generalizing out with
  | nil => simp [join_nil]
  | cons p rest ih =>
    obtain ⟨s, o, hs, ho⟩ := h p (List.mem_cons_self _ _)
    have hrest := fun q hq => h q (List.mem_cons_of_mem _ hq)
    have hw : IOFormat.written heap p = o := by
      simp only [IOFormat.written, hs, ho]
    have hstep : IOFormat.printSegments heap (p :: (rest ++ l2)) out =
        IOFormat.printSegments heap (rest ++ l2) (out ++ o) := by
      simp only [IOFormat.printSegments, hs, IOSegment.printTo_of_returned s o out ho]
    rw [List.cons_append, hstep, ih _ hrest, List.map_cons, join_cons, hw,
      String.append_assoc]

/-- C7: `IOFormat::printTo` prints the segments in the order they were added, with nothing
between them. If every segment prints, the stream receives the concatenation of their outputs
in `addSegment` order. If segment `k` is the first that throws, the exception propagates and
the stream holds the outputs of segments `0..k-1` and nothing else. -/
theorem IOFormat.printTo_in_order (heap : Heap) (segments : List Nat) (out : String) :
    (segments.foldl IOFormat.addSegment IOFormat.init).segments = segments ∧
      ((∀ p ∈ segments, ∃ s o, heap[p]? = some s ∧ s.printTo "" = .returned o) →
        (segments.foldl IOFormat.addSegment IOFormat.init).printTo heap out =
          .returned (out ++ String.join (segments.map (IOFormat.written heap)))) ∧
      (∀ (k : Nat) (hk : k < segments.length) (s : IOSegment) (e : IOFormatException)
          (o : String),
        (∀ p ∈ segments.take k, ∃ s o, heap[p]? = some s ∧ s.printTo "" = .returned o) →
        heap[segments[k]]? = some s → s.printTo "" = .thrown e o →
        (segments.foldl IOFormat.addSegment IOFormat.init).printTo heap out =
          .thrown e
            (out ++ String.join ((segments.take k).map (IOFormat.written heap)))) := by
  have hseg : (segments.foldl IOFormat.addSegment IOFormat.init).segments = segments := by
    simp [IOFormat.addSegment_foldl, IOFormat.init]
  refine ⟨hseg, ?_, ?_⟩
  · intro hall
    have h := IOFormat.printSegments_append heap segments [] out hall
    rw [List.append_nil] at h
    rw [IOFormat.printTo, hseg, h]
    rfl
  · intro k hk s e o hbefore hs hthrow
    have hsplit : segments = segments.take k ++ segments[k] :: segments.drop (k + 1) := by
      rw [← List.drop_eq_getElem_cons hk, List.take_append_drop]
    have h := IOFormat.printSegments_append heap (segments.take k)
      (segments[k] :: segments.drop (k + 1)) out hbefore
    rw [← hsplit] at h
    rw [IOFormat.printTo, hseg, h]
    simp only [IOFormat.printSegments, hs, IOSegment.printTo_of_thrown s e o _ hthrow]

/-- C7, at a format of a Line segment, a Lines segment with no vector and a Grid segment: the
Line segment's output is on the stream when the Lines segment throws, and nothing of the Grid
segment is. -/
theorem IOFormat.printTo_in_order_witness :
    IOFormat.printTo
        [.line { description := "a", vars := [.Scalar "1"] },
          .lines { description := "b", vars := [] },
          .grid ((GridIOSegment.init "c").comma (.scalarMatrix [["2"]])).1]
        (([0, 1, 2] : List Nat).foldl IOFormat.addSegment IOFormat.init) "" =
      .thrown ⟨"Lines segment must have at least one variable"⟩ "1\n" :=
  ((IOFormat.printTo_in_order
      [.line { description := "a", vars := [.Scalar "1"] },
        .lines { description := "b", vars := [] },
        .grid ((GridIOSegment.init "c").comma (.scalarMatrix [["2"]])).1]
      [0, 1, 2] "").2.2 1 (by decide) (.lines { description := "b", vars := [] })
      ⟨"Lines segment must have at least one variable"⟩ ""
      (by
        intro p hp
        have hp0 : p = 0 := by simpa using hp
        subst hp0
        exact ⟨_, _, rfl, rfl⟩)
      rfl rfl).trans (by decide)

/-! ## `IOFormatsCollector`: the two formats -/

theorem IOFormatsCollector.addNew_formats (c : IOFormatsCollector) (s : IOSegment)
    (target : IOMode) :
    ((c.addNew s).1.formats target).segments =
      (c.formats target).segments ++ (if c.mode = target then [c.heap.length] else []) := by
  by_cases h : target = c.mode
  · subst h
    simp [IOFormatsCollector.addNew, IOFormat.addSegment]
  · have h2 : ¬ c.mode = target := fun h3 => h h3.symm
    simp [IOFormatsCollector.addNew, h, h2]

theorem IOFormatsCollector.run_from (calls : List CollectorCall) (c : IOFormatsCollector)
    (target : IOMode) :
    ((c.run calls).formats target).segments =
        (c.formats target).segments ++
          CollectorCall.addedWhile target calls c.mode c.heap.length ∧
      (c.run calls).heap = c.heap ++ calls.filterMap CollectorCall.created := by
  induction calls generalizing c with
  | nil => simp [IOFormatsCollector.run, CollectorCall.addedWhile]
  | cons call rest ih =>
    have hrun : c.run (call :: rest) = (c.call call).run rest := rfl
    rw [hrun]
    obtain ⟨ih1, ih2⟩ := ih (c.call call)
    rw [ih1, ih2]
    cases call with
    | setMode mode =>
      simp [IOFormatsCollector.call, IOFormatsCollector.setMode, CollectorCall.addedWhile,
        CollectorCall.created]
    | addLineSegment description =>
      have hf := IOFormatsCollector.addNew_formats c (.line { description := description, vars := [] }) target
      simp only [IOFormatsCollector.call, IOFormatsCollector.addLineSegment]
      rw [hf]
      simp [CollectorCall.addedWhile, CollectorCall.created, IOFormatsCollector.addNew]
    | addLinesSegment description =>
      have hf := IOFormatsCollector.addNew_formats c (.lines { description := description, vars := [] }) target
      simp only [IOFormatsCollector.call, IOFormatsCollector.addLinesSegment]
      rw [hf]
      simp [CollectorCall.addedWhile, CollectorCall.created, IOFormatsCollector.addNew]
    | addGridSegment description =>
      have hf := IOFormatsCollector.addNew_formats c (.grid (GridIOSegment.init description)) target
      simp only [IOFormatsCollector.call, IOFormatsCollector.addGridSegment]
      rw [hf]
      simp [CollectorCall.addedWhile, CollectorCall.created, IOFormatsCollector.addNew]

theorem CollectorCall.le_of_mem_addedWhile (target : IOMode) (calls : List CollectorCall)
    (mode : IOMode) (next p : Nat)
    (h : p ∈ CollectorCall.addedWhile target calls mode next) : next ≤ p := by
  induction calls generalizing mode next with
  | nil => simp [CollectorCall.addedWhile] at h
  | cons call rest ih =>
    cases call with
    | setMode m => exact ih _ _ (by simpa [CollectorCall.addedWhile] using h)
    | addLineSegment d =>
      simp only [CollectorCall.addedWhile, List.mem_append] at h
      rcases h with h | h
      · split at h <;> simp at h; omega
      · have := ih _ _ h; omega
    | addLinesSegment d =>
      simp only [CollectorCall.addedWhile, List.mem_append] at h
      rcases h with h | h
      · split at h <;> simp at h; omega
      · have := ih _ _ h; omega
    | addGridSegment d =>
      simp only [CollectorCall.addedWhile, List.mem_append] at h
      rcases h with h | h
      · split at h <;> simp at h; omega
      · have := ih _ _ h; omega

theorem CollectorCall.addedWhile_disjoint (calls : List CollectorCall) (mode : IOMode)
    (next p : Nat) (hin : p ∈ CollectorCall.addedWhile .INPUT calls mode next) :
    p ∉ CollectorCall.addedWhile .OUTPUT calls mode next := by
  induction calls generalizing mode next with
  | nil => simp [CollectorCall.addedWhile]
  | cons call rest ih =>
    have key : ∀ (tailIn tailOut : List Nat),
        tailIn = CollectorCall.addedWhile .INPUT rest mode (next + 1) →
        tailOut = CollectorCall.addedWhile .OUTPUT rest mode (next + 1) →
        p ∈ (if mode = IOMode.INPUT then [next] else []) ++ tailIn →
        p ∉ (if mode = IOMode.OUTPUT then [next] else []) ++ tailOut := by
      intro tailIn tailOut h1 h2 hp
      subst h1 h2
      rw [List.mem_append] at hp
      rw [List.mem_append, not_or]
      rcases hp with hp | hp
      · cases mode
        · simp only [if_true, List.mem_singleton] at hp
          subst hp
          refine ⟨by simp, fun hq => ?_⟩
          have := CollectorCall.le_of_mem_addedWhile _ _ _ _ _ hq
          omega
        · simp at hp
      · have hle := CollectorCall.le_of_mem_addedWhile _ _ _ _ _ hp
        refine ⟨?_, ih _ _ hp⟩
        cases mode
        · simp
        · simp only [if_true, List.mem_singleton]
          omega
    cases call with
    | setMode m => exact ih _ _ (by simpa [CollectorCall.addedWhile] using hin)
    | addLineSegment d => exact key _ _ rfl rfl hin
    | addLinesSegment d => exact key _ _ rfl rfl hin
    | addGridSegment d => exact key _ _ rfl rfl hin

/-- C8: after any sequence of `setMode` and `add...Segment` calls on a fresh collector, the
segment list of `collectFormat(INPUT)` is exactly the segments added while the mode was INPUT,
in the order added, and that of `collectFormat(OUTPUT)` exactly those added while the mode was
OUTPUT; no segment is in both; the heap holds the created segments in creation order; and
`setMode` changes neither the formats nor the heap. -/
theorem IOFormatsCollector.collectFormat_run (calls : List CollectorCall) :
    ((IOFormatsCollector.init.run calls).collectFormat .INPUT).segments =
        CollectorCall.addedWhile .INPUT calls .INPUT 0 ∧
      ((IOFormatsCollector.init.run calls).collectFormat .OUTPUT).segments =
        CollectorCall.addedWhile .OUTPUT calls .INPUT 0 ∧
      (∀ p, p ∈ ((IOFormatsCollector.init.run calls).collectFormat .INPUT).segments →
        p ∉ ((IOFormatsCollector.init.run calls).collectFormat .OUTPUT).segments) ∧
      (IOFormatsCollector.init.run calls).heap = calls.filterMap CollectorCall.created ∧
      (∀ (c : IOFormatsCollector) (mode : IOMode),
        (c.setMode mode).formats = c.formats ∧ (c.setMode mode).heap = c.heap) := by
  have hin : ((IOFormatsCollector.init.run calls).collectFormat .INPUT).segments =
      CollectorCall.addedWhile .INPUT calls .INPUT 0 := by
    rw [IOFormatsCollector.collectFormat,
      (IOFormatsCollector.run_from calls IOFormatsCollector.init .INPUT).1]
    rfl
  have hout : ((IOFormatsCollector.init.run calls).collectFormat .OUTPUT).segments =
      CollectorCall.addedWhile .OUTPUT calls .INPUT 0 := by
    rw [IOFormatsCollector.collectFormat,
      (IOFormatsCollector.run_from calls IOFormatsCollector.init .OUTPUT).1]
    rfl
  have hheap : (IOFormatsCollector.init.run calls).heap =
      calls.filterMap CollectorCall.created := by
    rw [(IOFormatsCollector.run_from calls IOFormatsCollector.init .INPUT).2]
    rfl
  refine ⟨hin, hout, ?_, hheap, fun _ _ => ⟨rfl, rfl⟩⟩
  intro p hp
  rw [hin] at hp
  rw [hout]
  exact CollectorCall.addedWhile_disjoint calls .INPUT 0 p hp

/-- C8, at the calls `addLineSegment`, `setMode(OUTPUT)`, `addGridSegment`, `setMode(INPUT)`,
`addLinesSegment`: the first and third segments created are in the input format, the second in
the output format. -/
theorem IOFormatsCollector.collectFormat_run_witness :
    ((IOFormatsCollector.init.run
        [.addLineSegment "a", .setMode .OUTPUT, .addGridSegment "b", .setMode .INPUT,
          .addLinesSegment "c"]).collectFormat .INPUT).segments = [0, 2] ∧
      ((IOFormatsCollector.init.run
        [.addLineSegment "a", .setMode .OUTPUT, .addGridSegment "b", .setMode .INPUT,
          .addLinesSegment "c"]).collectFormat .OUTPUT).segments = [1] :=
  ⟨(IOFormatsCollector.collectFormat_run
      [.addLineSegment "a", .setMode .OUTPUT, .addGridSegment "b", .setMode .INPUT,
        .addLinesSegment "c"]).1.trans (by decide),
    (IOFormatsCollector.collectFormat_run
      [.addLineSegment "a", .setMode .OUTPUT, .addGridSegment "b", .setMode .INPUT,
        .addLinesSegment "c"]).2.1.trans (by decide)⟩

/-! ## `MultipleTestCasesConstraintsVerificationResult` -/

theorem StringSet.insertInto_cons (d x : String) (rest : List String) :
    StringSet.insertInto d (x :: rest) =
      if d < x then d :: x :: rest
      else if x < d then x :: StringSet.insertInto d rest
      else x :: rest := by
  simp only [StringSet.insertInto, String.lt_iff_toList_lt]

theorem StringSet.mem_insertInto (d a : String) (l : List String) :
    a ∈ StringSet.insertInto d l ↔ a = d ∨ a ∈ l := by
  induction l with
  | nil => simp [StringSet.insertInto]
  | cons x rest ih =>
    rw [StringSet.insertInto_cons]
    by_cases h1 : d < x
    · simp [h1]
    · by_cases h2 : x < d
      · simp only [h1, h2, if_false, if_true, List.mem_cons, ih]
        tauto
      · have hdx : d = x := le_antisymm (not_lt.mp h2) (not_lt.mp h1)
        subst hdx
        simp [h1]

theorem StringSet.sorted_insertInto (d : String) (l : List String)
    (h : l.Sorted (fun a b => a < b)) :
    (StringSet.insertInto d l).Sorted (fun a b => a < b) := by
  induction l with
  | nil => simp [StringSet.insertInto]
  | cons x rest ih =>
    rw [StringSet.insertInto_cons]
    have hx := List.sorted_cons.mp h
    by_cases h1 : d < x
    · rw [if_pos h1]
      refine List.sorted_cons.mpr ⟨?_, h⟩
      intro b hb
      rcases List.mem_cons.mp hb with rfl | hb
      · exact h1
      · exact lt_trans h1 (hx.1 b hb)
    · by_cases h2 : x < d
      · rw [if_neg h1, if_pos h2]
        refine List.sorted_cons.mpr ⟨?_, ih hx.2⟩
        intro b hb
        rcases (StringSet.mem_insertInto d b rest).mp hb with rfl | hb
        · exact h2
        · exact hx.1 b hb
      · rw [if_neg h1, if_neg h2]
        exact h

theorem StringSet.foldl_insert (ds : List String) (s : StringSet)
    (h : s.elems.Sorted (fun a b => a < b)) :
    (ds.foldl StringSet.insert s).elems.Sorted (fun a b => a < b) ∧
      ∀ a, a ∈ (ds.foldl StringSet.insert s).elems ↔ a ∈ s.elems ∨ a ∈ ds := by
  induction ds generalizing s with
  | nil => exact ⟨h, fun a => by simp⟩
  | cons d rest ih =>
    have hs : (s.insert d).elems.Sorted (fun a b => a < b) :=
      StringSet.sorted_insertInto d s.elems h
    obtain ⟨ih1, ih2⟩ := ih (s.insert d) hs
    refine ⟨ih1, fun a => ?_⟩
    rw [List.foldl_cons, ih2, StringSet.insert, StringSet.mem_insertInto, List.mem_cons]
    tauto

theorem StringSet.sorted_ofList (ds : List String) :
    (StringSet.ofList ds).elems.Sorted (fun a b => a < b) :=
  (StringSet.foldl_insert ds StringSet.init List.sorted_nil).1

theorem StringSet.mem_ofList (ds : List String) (a : String) :
    a ∈ (StringSet.ofList ds).elems ↔ a ∈ ds := by
  have h := (StringSet.foldl_insert ds StringSet.init List.sorted_nil).2 a
  simpa [StringSet.init] using h

theorem StringSet.length_ofList (ds : List String) :
    (StringSet.ofList ds).elems.length = ds.dedup.length := by
  have hnodup : (StringSet.ofList ds).elems.Nodup :=
    (StringSet.sorted_ofList ds).nodup
  have hset : (StringSet.ofList ds).elems.toFinset = ds.toFinset := by
    ext a
    simp [StringSet.mem_ofList]
  rw [← List.toFinset_card_of_nodup hnodup, hset, List.card_toFinset]

theorem MultipleTestCasesConstraintsVerificationResult.appendDescriptions_eq
    (l : List String) (messages : List (Int × String)) :
    MultipleTestCasesConstraintsVerificationResult.appendDescriptions l messages =
      messages ++ l.map fun d => (1, d) := by
  induction l generalizing messages with
  | nil => simp [MultipleTestCasesConstraintsVerificationResult.appendDescriptions]
  | cons d rest ih =>
    simp [MultipleTestCasesConstraintsVerificationResult.appendDescriptions, ih]

/-- C9: `asFormattedError` yields the header (indent 0, "Does not satisfy constraints, on:")
followed by one (indent 1, d) entry per element d of the set, in the set's iteration order.
For the set built from any list of descriptions, in any order and with repetitions, these are
the distinct descriptions in strictly ascending lexical order, and the list has
1 + (number of distinct descriptions) entries. -/
theorem MultipleTestCasesConstraintsVerificationResult.asFormattedError_sorted
    (r : MultipleTestCasesConstraintsVerificationResult) (ds : List String) :
    r.asFormattedError.messages =
        (0, "Does not satisfy constraints, on:") ::
          r.unsatisfiedConstraintDescriptions.elems.map (fun d => (1, d)) ∧
      (StringSet.ofList ds).elems.Sorted (fun a b => a < b) ∧
      (∀ d, d ∈ (StringSet.ofList ds).elems ↔ d ∈ ds) ∧
      (MultipleTestCasesConstraintsVerificationResult.asFormattedError
          { unsatisfiedConstraintDescriptions := StringSet.ofList ds }).messages.length =
        1 + ds.dedup.length := by
  have hmsg : ∀ r : MultipleTestCasesConstraintsVerificationResult,
      r.asFormattedError.messages =
        (0, "Does not satisfy constraints, on:") ::
          r.unsatisfiedConstraintDescriptions.elems.map (fun d => (1, d)) := by
    intro r
    simp [MultipleTestCasesConstraintsVerificationResult.asFormattedError,
      MultipleTestCasesConstraintsVerificationResult.appendDescriptions_eq]
  refine ⟨hmsg r, StringSet.sorted_ofList ds, StringSet.mem_ofList ds, ?_⟩
  rw [hmsg]
  simp [StringSet.length_ofList, Nat.add_comm]

/-- C10: `isValid` returns true exactly when the set of descriptions is empty: the
default-constructed result and the result built from the empty set are valid, and the result
built from a list of descriptions is valid only when the list is empty. -/
theorem MultipleTestCasesConstraintsVerificationResult.isValid_iff
    (r : MultipleTestCasesConstraintsVerificationResult) (ds : List String) :
    (r.isValid = true ↔ r.unsatisfiedConstraintDescriptions.elems = []) ∧
      MultipleTestCasesConstraintsVerificationResult.init.isValid = true ∧
      MultipleTestCasesConstraintsVerificationResult.isValid
        { unsatisfiedConstraintDescriptions := StringSet.ofList [] } = true ∧
      (MultipleTestCasesConstraintsVerificationResult.isValid
        { unsatisfiedConstraintDescriptions := StringSet.ofList ds } = true ↔ ds = []) := by
  have h1 : ∀ r : MultipleTestCasesConstraintsVerificationResult,
      r.isValid = true ↔ r.unsatisfiedConstraintDescriptions.elems = [] := by
    intro r
    simp [MultipleTestCasesConstraintsVerificationResult.isValid, StringSet.empty]
  refine ⟨h1 r, rfl, rfl, ?_⟩
  rw [h1]
  constructor
  · intro h
    apply List.eq_nil_iff_forall_not_mem.mpr
    intro a ha
    have := (StringSet.mem_ofList ds a).mpr ha
    rw [h] at this
    cases this
  · intro h
    rw [h]
    rfl

/-- C9, at the descriptions "b", "a", "c", "a", "b": one entry per distinct description, in
ascending order, after the header. -/
theorem MultipleTestCasesConstraintsVerificationResult.asFormattedError_sorted_witness :
    (MultipleTestCasesConstraintsVerificationResult.asFormattedError
        { unsatisfiedConstraintDescriptions :=
            StringSet.ofList ["b", "a", "c", "a", "b"] }).messages =
      [(0, "Does not satisfy constraints, on:"), (1, "a"), (1, "b"), (1, "c")] :=
  (MultipleTestCasesConstraintsVerificationResult.asFormattedError_sorted
    { unsatisfiedConstraintDescriptions := StringSet.ofList ["b", "a", "c", "a", "b"] }
    ["b", "a", "c", "a", "b"]).1.trans (by decide)

/-- C10, at the set built from the one description "a": the result is not valid. -/
theorem MultipleTestCasesConstraintsVerificationResult.isValid_iff_witness :
    MultipleTestCasesConstraintsVerificationResult.isValid
        { unsatisfiedConstraintDescriptions := StringSet.ofList ["a"] } ≠ true :=
  fun h =>
    absurd
      ((MultipleTestCasesConstraintsVerificationResult.isValid_iff
        MultipleTestCasesConstraintsVerificationResult.init ["a"]).2.2.2.mp h)
      (by decide)

/-! ## `io/LineIOSegment.hpp`: the builder and `operator==` -/

theorem io.LineIOSegmentBuilder.addScalarVariables_spec (scalars : List Nat)
    (b : io.LineIOSegmentBuilder) (mem : io.Memory) (vs : List Nat)
    (hsub : mem.segments[b.subject_]? = some { variables_ := vs }) :
    ∃ mem1, io.LineIOSegmentBuilder.addScalarVariables scalars b mem = some (mem1, b) ∧
      mem1.segments[b.subject_]? =
        some { variables_ := vs ++ List.range' mem.lineVariables.length scalars.length } ∧
      (∀ j, j ≠ b.subject_ → mem1.segments[j]? = mem.segments[j]?) ∧
      mem1.segments.length = mem.segments.length ∧
      mem1.lineVariables = mem.lineVariables ++ scalars.map fun x => { scalar := x } := by
  induction scalars generalizing mem vs with
  | nil => exact ⟨mem, rfl, by simpa using hsub, fun _ _ => rfl, rfl, by simp⟩
  | cons x rest ih =>
    have hlt : b.subject_ < mem.segments.length := by
      by_contra h
      rw [List.getElem?_eq_none (by omega)] at hsub
      cases hsub
    have hstep : b.addScalarVariable mem x =
        some ({ segments := mem.segments.set b.subject_
                  { variables_ := vs ++ [mem.lineVariables.length] },
                lineVariables := mem.lineVariables ++ [{ scalar := x }] }, b) := by
      simp [io.LineIOSegmentBuilder.addScalarVariable, hsub]
    obtain ⟨mem1, h1, h2, h3, h4, h5⟩ :=
      ih { segments := mem.segments.set b.subject_
              { variables_ := vs ++ [mem.lineVariables.length] },
           lineVariables := mem.lineVariables ++ [{ scalar := x }] }
        (vs ++ [mem.lineVariables.length]) (List.getElem?_set_self hlt)
    refine ⟨mem1, ?_, ?_, ?_, ?_, ?_⟩
    · simp only [io.LineIOSegmentBuilder.addScalarVariables, hstep, h1]
    · rw [h2]
      simp [List.range'_succ]
    · intro j hj
      rw [h3 j hj]
      exact List.getElem?_set_ne (Ne.symm hj)
    · rw [h4]
      simp
    · rw [h5]
      simp

theorem io.buildLine_spec (mem : io.Memory) (scalars : List Nat) :
    ∃ mem1, io.buildLine mem scalars = some (mem1, mem.segments.length) ∧
      mem1.segments[mem.segments.length]? =
        some { variables_ := List.range' mem.lineVariables.length scalars.length } ∧
      (∀ j, j < mem.segments.length → mem1.segments[j]? = mem.segments[j]?) ∧
      mem1.segments.length = mem.segments.length + 1 ∧
      mem1.lineVariables = mem.lineVariables ++ scalars.map fun x => { scalar := x } := by
  obtain ⟨mem1, h1, h2, h3, h4, h5⟩ :=
    io.LineIOSegmentBuilder.addScalarVariables_spec scalars
      (io.LineIOSegmentBuilder.init mem).2 (io.LineIOSegmentBuilder.init mem).1 []
      (by simp [io.LineIOSegmentBuilder.init])
  refine ⟨mem1, ?_, ?_, ?_, ?_, ?_⟩
  · simp only [io.buildLine, h1]
    rfl
  · simpa [io.LineIOSegmentBuilder.init] using h2
  · intro j hj
    have hne : j ≠ (io.LineIOSegmentBuilder.init mem).2.subject_ := by
      simp only [io.LineIOSegmentBuilder.init]
      omega
    rw [h3 j hne]
    simp only [io.LineIOSegmentBuilder.init]
    exact List.getElem?_append_left hj
  · rw [h4]
    simp [io.LineIOSegmentBuilder.init]
  · rw [h5]
    rfl

/-- Reading back, through positions `V.length ..`, what was appended to `V`. -/
theorem map_getElem?_range' {α : Type} (l V : List α) :
    (List.range' V.length l.length).map (fun a => (V ++ l)[a]?) = l.map some := by
  induction l generalizing V with
  | nil => rfl
  | cons x rest ih =>
    have h := ih (V ++ [x])
    simp only [List.length_append, List.length_singleton, List.append_assoc,
      List.singleton_append] at h
    simp only [List.length_cons, List.range'_succ, List.map_cons, h]
    simp [List.getElem_append_right]

theorem range'_eq_range'_iff_zero (n1 n2 : Nat) :
    List.range' 0 n1 = List.range' n1 n2 ↔ n1 = 0 ∧ n2 = 0 := by
  constructor
  · intro h
    cases n1 with
    | zero =>
      cases n2 with
      | zero => exact ⟨rfl, rfl⟩
      | succ n2 => simp [List.range'_succ] at h
    | succ n1 =>
      cases n2 with
      | zero => simp [List.range'_succ] at h
      | succ n2 => simp [List.range'_succ] at h
  · rintro ⟨rfl, rfl⟩
    rfl

/-- C11: `LineIOSegment::operator==` compares the two vectors of adapter pointers. Every
`addScalarVariable` allocates a new adapter, so two segments returned by two separate builder
runs compare equal only when both runs added nothing: with equal scalars added in the same
order (the same `Scalar*`, even) the segments compare unequal, where the claim says equal. -/
theorem io.LineIOSegment.operatorEq_separately_built (scalars1 scalars2 : List Nat) :
    io.buildTwoAndCompare scalars1 scalars2 = some (decide (scalars1 = [] ∧ scalars2 = [])) ∧
      io.buildTwoAndCompare [7] [7] = some false := by
  refine ⟨?_, by decide⟩
  obtain ⟨mem1, h1, h2, _, h4, h5⟩ := io.buildLine_spec io.Memory.init scalars1
  obtain ⟨mem2, k1, k2, k3, _, _⟩ := io.buildLine_spec mem1 scalars2
  have hlen1 : mem1.segments.length = 1 := by simpa [io.Memory.init] using h4
  have hv1 : mem1.lineVariables.length = scalars1.length := by
    rw [h5]
    simp [io.Memory.init]
  have hfirst : mem2.segments[0]? =
      some { variables_ := List.range' 0 scalars1.length } := by
    rw [k3 0 (by omega)]
    simpa [io.Memory.init] using h2
  have hsecond : mem2.segments[1]? =
      some { variables_ := List.range' scalars1.length scalars2.length } := by
    rw [hlen1, hv1] at k2
    exact k2
  rw [hlen1] at k1
  have h1' : io.buildLine io.Memory.init scalars1 = some (mem1, 0) := h1
  simp only [io.buildTwoAndCompare, h1', k1, hfirst, hsecond, io.LineIOSegment.operatorEq,
    range'_eq_range'_iff_zero, List.length_eq_zero]

/-- C17: `LineIOSegmentBuilder().addScalarVariable(v1)...addScalarVariable(vn).build()`
returns a pointer to a segment of type `LINE` whose `variables()` has exactly `n` entries, all
different, the `i`-th pointing to the adapter that wraps the scalar of the `i`-th call; with
no call the list is empty. -/
theorem io.LineIOSegmentBuilder.build_variables (mem : io.Memory) (scalars : List Nat) :
    ∃ mem1 p seg, io.buildLine mem scalars = some (mem1, p) ∧
      mem1.segments[p]? = some seg ∧
      seg.type = .LINE ∧
      seg.variables.length = scalars.length ∧
      seg.variables.Nodup ∧
      seg.variables.map (fun a => mem1.lineVariables[a]?) =
        scalars.map (fun x => some { scalar := x }) ∧
      (scalars = [] → seg.variables = []) := by
  obtain ⟨mem1, h1, h2, _, _, h5⟩ := io.buildLine_spec mem scalars
  refine ⟨mem1, mem.segments.length, _, h1, h2, rfl, ?_, ?_, ?_, ?_⟩
  · simp [io.LineIOSegment.variables]
  · exact List.nodup_range' _ _
  · have h := map_getElem?_range' (scalars.map fun x => ({ scalar := x } :
      io.LineIOSegmentScalarVariable)) mem.lineVariables
    simp only [List.length_map, List.map_map] at h
    simp only [io.LineIOSegment.variables, h5]
    exact h
  · intro hnil
    simp [io.LineIOSegment.variables, hnil]

/-- C17, at the test's segment: three `addScalarVariable` calls on a fresh builder give a
segment with three entries. -/
theorem io.LineIOSegmentBuilder.build_variables_witness :
    ∃ mem1 p seg, io.buildLine io.Memory.init [10, 20, 30] = some (mem1, p) ∧
      mem1.segments[p]? = some seg ∧
      seg.variables.length = 3 ∧
      seg.variables.map (fun a => mem1.lineVariables[a]?) =
        [some { scalar := 10 }, some { scalar := 20 }, some { scalar := 30 }] := by
  obtain ⟨mem1, p, seg, h1, h2, _, h4, _, h5, _⟩ :=
    io.LineIOSegmentBuilder.build_variables io.Memory.init [10, 20, 30]
  exact ⟨mem1, p, seg, h1, h2, h4, h5⟩

/-! ## `LineIOSegment`: the order of the writes -/

theorem LineIOSegment.writesOfVariables_false (vars : List HorizontalVariable)
    (log : List LineWrite) :
    LineIOSegment.writesOfVariables vars false log =
      log ++ vars.flatMap fun w => [.space, .variablePrintTo w] := by
  induction vars generalizing log with
  | nil => simp [LineIOSegment.writesOfVariables]
  | cons v rest ih =>
    simp [LineIOSegment.writesOfVariables, ih, List.flatMap_cons]

theorem LineIOSegment.writes_cons (d : String) (var1 : HorizontalVariable)
    (rest : List HorizontalVariable) :
    LineIOSegment.writes { description := d, vars := var1 :: rest } =
      .variablePrintTo var1 :: (rest.flatMap fun w => [.space, .variablePrintTo w]) ++
        [.newline] := by
  simp [LineIOSegment.writes, LineIOSegment.writesOfVariables,
    LineIOSegment.writesOfVariables_false]

theorem LineIOSegment.foldl_writesOfVariables (vars : List HorizontalVariable) (first : Bool)
    (log : List LineWrite) (out : String) :
    (LineIOSegment.writesOfVariables vars first log).foldl (fun o w => w.apply o) out =
      LineIOSegment.printVariables vars first
        (log.foldl (fun o w => LineWrite.apply w o) out) := by
  induction vars generalizing first log with
  | nil => rfl
  | cons v rest ih =>
    cases first
    · simp only [LineIOSegment.writesOfVariables, LineIOSegment.printVariables,
        Bool.not_false, if_true, ih, List.foldl_append, List.foldl_cons, List.foldl_nil]
      rfl
    · simp only [LineIOSegment.writesOfVariables, LineIOSegment.printVariables,
        Bool.not_true, Bool.false_eq_true, if_false, ih, List.foldl_append, List.foldl_cons,
        List.foldl_nil]
      rfl

theorem LineWrite.count_space_flatMap (rest : List HorizontalVariable) :
    (rest.flatMap fun w => [LineWrite.space, LineWrite.variablePrintTo w]).count .space =
      rest.length := by
  induction rest with
  | nil => rfl
  | cons v rest ih =>
    simp only [List.flatMap_cons, List.count_append, ih, List.length_cons]
    simp [List.count_cons]
    omega

theorem LineWrite.count_newline_flatMap (rest : List HorizontalVariable) :
    (rest.flatMap fun w => [LineWrite.space, LineWrite.variablePrintTo w]).count .newline =
      0 := by
  induction rest with
  | nil => rfl
  | cons v rest ih =>
    simp only [List.flatMap_cons, List.count_append, ih]
    simp [List.count_cons]

/-- C12: printing a Line segment of `n >= 1` adapters (scalars in particular) performs, in
this order: the print of adapter 1, then for each following adapter one space and that
adapter's print, then one newline. So there are exactly `n - 1` spaces, each between two
consecutive adapters, and exactly one newline, written last; and these writes, applied in
order to the stream, are what `printTo` leaves on it. -/
theorem LineIOSegment.writes_in_order (d : String) (var1 : HorizontalVariable)
    (rest : List HorizontalVariable) (out : String) :
    LineIOSegment.writes { description := d, vars := var1 :: rest } =
        .variablePrintTo var1 :: (rest.flatMap fun w => [.space, .variablePrintTo w]) ++
          [.newline] ∧
      (LineIOSegment.writes { description := d, vars := var1 :: rest }).count .space =
        rest.length ∧
      (LineIOSegment.writes { description := d, vars := var1 :: rest }).count .newline = 1 ∧
      LineIOSegment.printTo { description := d, vars := var1 :: rest } out =
        .returned
          ((LineIOSegment.writes { description := d, vars := var1 :: rest }).foldl
            (fun o w => w.apply o) out) := by
  refine ⟨LineIOSegment.writes_cons d var1 rest, ?_, ?_, ?_⟩
  · rw [LineIOSegment.writes_cons]
    simp [List.count_cons, List.count_append, LineWrite.count_space_flatMap]
  · rw [LineIOSegment.writes_cons]
    simp [List.count_cons, List.count_append, LineWrite.count_newline_flatMap]
  · simp only [LineIOSegment.writes, LineIOSegment.printTo, List.foldl_append,
      LineIOSegment.foldl_writesOfVariables, List.foldl_cons, List.foldl_nil]
    rfl

/-- C12, at the test's segment of the scalars A, B and C: A, space, B, space, C, newline. -/
theorem LineIOSegment.writes_in_order_witness :
    LineIOSegment.writes
        { description := "line", vars := [.Scalar "A", .Scalar "B", .Scalar "C"] } =
      [.variablePrintTo (.Scalar "A"), .space, .variablePrintTo (.Scalar "B"), .space,
        .variablePrintTo (.Scalar "C"), .newline] :=
  (LineIOSegment.writes_in_order "line" (.Scalar "A") [.Scalar "B", .Scalar "C"] "").1.trans
    (by decide)

/-! ## Printing twice -/

theorem VerticalVariable.vertical_printElementTo_eq_none (v : VerticalVariable) (i : Nat)
    (out : String) : v.printElementTo i out = none ↔ v.value.length ≤ i := by
  unfold VerticalVariable.printElementTo
  by_cases h : i < v.value.length
  · simp [List.getElem?_eq_getElem h, h]
  · simp [List.getElem?_eq_none (Nat.le_of_not_lt h), Nat.le_of_not_lt h]

theorem MatrixVariable.matrix_printElementTo_eq_none (m : MatrixVariable) (i j : Nat)
    (out : String) :
    m.printElementTo i j out = none ↔ ∀ row, m.value[i]? = some row → row.length ≤ j := by
  unfold MatrixVariable.printElementTo
  cases hrow : m.value[i]? with
  | none => simp
  | some row =>
    by_cases h : j < row.length
    · simp [List.getElem?_eq_getElem h, h]
    · simp [List.getElem?_eq_none (Nat.le_of_not_lt h), Nat.le_of_not_lt h]

/-- C16: element access during printing is always in bounds. `printTo` of a Lines or Grid
segment never ends in an out-of-range access. In `LinesIOSegment`, `isValidSegment` reads
`variables[0]`, which does not exist for an empty list, and `printTo` calls it only behind the
emptiness check, where it succeeds; once it has answered true, every `printElementTo(i)` of
the printing loops succeeds. In `GridIOSegment`, `isValidSegment` succeeds on every matrix,
the one with no rows included, and every `printElementTo(i, j)` of the printing loops
succeeds. The adapters do fail on an index that is out of range. -/
theorem IOSegment.printTo_in_bounds (ls : LinesIOSegment) (gs : GridIOSegment)
    (m : MatrixVariable) (hasSpaces : Bool) (out : String) :
    ls.printTo out ≠ .outOfRange ∧
      LinesIOSegment.isValidSegment [] = none ∧
      (ls.vars ≠ [] → ∃ valid, LinesIOSegment.isValidSegment ls.vars = some valid) ∧
      (∀ var0 rest, ls.vars = var0 :: rest →
        LinesIOSegment.isValidSegment ls.vars = some true →
        ∃ o, LinesIOSegment.printLines ls.vars var0.size 0 out = some o) ∧
      gs.printTo out ≠ .outOfRange ∧
      (∃ valid, GridIOSegment.isValidSegment m = some valid) ∧
      (∃ o, GridIOSegment.printRows m hasSpaces m.rowsSize 0 out = some o) ∧
      (∀ (v : VerticalVariable) (i : Nat),
        v.printElementTo i out = none ↔ v.value.length ≤ i) ∧
      (∀ i j, m.printElementTo i j out = none ↔
        ∀ row, m.value[i]? = some row → row.length ≤ j) := by
  refine ⟨?_, rfl, ?_, ?_, ?_, ?_, ?_, fun v i => VerticalVariable.vertical_printElementTo_eq_none v i out,
    fun i j => MatrixVariable.matrix_printElementTo_eq_none m i j out⟩
  · intro h
    rcases IOSegment.printTo_uniform (.lines ls) with ⟨w, hw⟩ | ⟨e, he⟩
    · have := hw out
      rw [IOSegment.printTo, h] at this
      cases this
    · have := he out
      rw [IOSegment.printTo, h] at this
      cases this
  · intro hne
    obtain ⟨var0, rest, hvars⟩ := List.exists_cons_of_ne_nil hne
    rw [hvars]
    exact ⟨_, LinesIOSegment.lines_isValidSegment_cons var0 rest⟩
  · intro var0 rest hvars hvalid
    rw [hvars] at hvalid ⊢
    rw [LinesIOSegment.lines_isValidSegment_cons] at hvalid
    have hall : ∀ v ∈ rest, v.size = var0.size := by
      injection hvalid with hvalid
      exact of_decide_eq_true hvalid
    exact ⟨_, LinesIOSegment.printLines_eq (var0 :: rest) var0.size 0
      (fun v hv => by
        rcases List.mem_cons.mp hv with rfl | hv
        · simp [VerticalVariable.size]
        · have := hall v hv
          simp only [VerticalVariable.size] at this ⊢
          omega) out⟩
  · intro h
    rcases IOSegment.printTo_uniform (.grid gs) with ⟨w, hw⟩ | ⟨e, he⟩
    · have := hw out
      rw [IOSegment.printTo, h] at this
      cases this
    · have := he out
      rw [IOSegment.printTo, h] at this
      cases this
  · obtain ⟨rows⟩ := m
    cases rows with
    | nil => exact ⟨_, GridIOSegment.isValidSegment_nil⟩
    | cons row0 rest => exact ⟨_, GridIOSegment.grid_isValidSegment_cons row0 rest⟩
  · exact ⟨_, GridIOSegment.printRows_eq m hasSpaces m.rowsSize 0
      (by simp [MatrixVariable.rowsSize]) out⟩

/-- C16, at a Lines segment of two vectors of length 2: the validity check answers true and
the printing loops read only existing elements. -/
theorem IOSegment.printTo_in_bounds_witness :
    LinesIOSegment.isValidSegment [⟨["1", "2"]⟩, ⟨["3", "4"]⟩] = some true ∧
      ∃ o, LinesIOSegment.printLines [⟨["1", "2"]⟩, ⟨["3", "4"]⟩] 2 0 "" = some o :=
  ⟨by decide,
    (IOSegment.printTo_in_bounds
      { description := "lines", vars := [⟨["1", "2"]⟩, ⟨["3", "4"]⟩] }
      (GridIOSegment.init "grid") ⟨[]⟩ false "").2.2.2.1 ⟨["1", "2"]⟩ [⟨["3", "4"]⟩] rfl
      (by decide)⟩

/-! ## Characters of the output -/

theorem mem_data_join (c : Char) (l : List String) :
    c ∈ (String.join l).data ↔ ∃ t ∈ l, c ∈ t.data := by
  induction l with
  | nil => simp [join_nil]
  | cons a l ih => simp [join_cons, ih]

theorem mem_data_intercalate (c : Char) (sep : String) (l : List String)
    (h : c ∈ (String.intercalate sep l).data) : c ∈ sep.data ∨ ∃ t ∈ l, c ∈ t.data := by
  cases l with
  | nil => simp [intercalate_nil] at h
  | cons a l =>
    rw [intercalate_cons, String.data_append, List.mem_append, mem_data_join] at h
    rcases h with h | ⟨t, ht, hc⟩
    · exact Or.inr ⟨a, List.mem_cons_self _ _, h⟩
    · obtain ⟨b, hb, rfl⟩ := List.mem_map.mp ht
      rw [String.data_append, List.mem_append] at hc
      rcases hc with hc | hc
      · exact Or.inl hc
      · exact Or.inr ⟨b, List.mem_cons_of_mem _ hb, hc⟩

theorem count_data_join (c : Char) (l : List String) :
    (String.join l).data.count c = (l.map fun t => t.data.count c).sum := by
  induction l with
  | nil => simp [join_nil]
  | cons a l ih =>
    rw [join_cons, String.data_append, List.count_append, ih]
    simp

theorem EndsWithNewline.ends_append {a b : List Char} (ha : EndsWithNewline a)
    (hb : EndsWithNewline b) : EndsWithNewline (a ++ b) := by
  rcases hb with rfl | hb
  · simpa using ha
  · right
    simp [List.getLast?_append, hb]

theorem EndsWithNewline.ends_join (l : List String) (h : ∀ t ∈ l, EndsWithNewline t.data) :
    EndsWithNewline (String.join l).data := by
  induction l with
  | nil => exact Or.inl rfl
  | cons a l ih =>
    rw [join_cons, String.data_append]
    exact EndsWithNewline.ends_append (h a (List.mem_cons_self _ _))
      (ih fun t ht => h t (List.mem_cons_of_mem _ ht))

theorem EndsWithNewline.ends_line (body : String) : EndsWithNewline (body ++ "\n").data := by
  right
  simp [List.getLast?_append]

theorem spacingFrom_append (a b : List Char) (p : Char) :
    spacingFrom p (a ++ b) = (spacingFrom p a && spacingFrom (a.getLast?.getD p) b) := by
  induction a generalizing p with
  | nil => simp [spacingFrom]
  | cons c a ih =>
    rw [List.cons_append]
    simp only [spacingFrom, ih, List.getLast?_cons, Option.getD_some, Bool.and_assoc]

theorem spacingFrom_word (w : List Char) (p : Char) (h : ∀ c ∈ w, c ≠ ' ' ∧ c ≠ '\n') :
    spacingFrom p w = true := by
  induction w generalizing p with
  | nil => rfl
  | cons c w ih =>
    have hc := h c (List.mem_cons_self _ _)
    simp [spacingFrom, hc.1, hc.2, ih c fun x hx => h x (List.mem_cons_of_mem _ hx)]

theorem getLast?_getD_word (w : List Char) (p : Char) (hne : w ≠ [])
    (h : ∀ c ∈ w, c ≠ ' ' ∧ c ≠ '\n') :
    w.getLast?.getD p ≠ ' ' ∧ w.getLast?.getD p ≠ '\n' := by
  rw [List.getLast?_eq_getLast _ hne, Option.getD_some]
  exact h _ (List.getLast_mem hne)

theorem IsToken.word {t : String} (h : IsToken t) : ∀ c ∈ t.data, c ≠ ' ' ∧ c ≠ '\n' := by
  intro c hc
  exact ⟨fun h1 => h.2.1 (h1 ▸ hc), fun h2 => h.2.2 (h2 ▸ hc)⟩

theorem IsToken.data_ne_nil {t : String} (h : IsToken t) : t.data ≠ [] := by
  intro hnil
  apply h.1
  apply String.ext
  simpa using hnil

theorem IsLines.nil : IsLines [] := ⟨rfl, Or.inl rfl⟩

theorem IsLines.lines_append {a b : List Char} (ha : IsLines a) (hb : IsLines b) :
    IsLines (a ++ b) := by
  refine ⟨?_, EndsWithNewline.ends_append ha.2 hb.2⟩
  have hlast : a.getLast?.getD '\n' = '\n' := by
    rcases ha.2 with rfl | h
    · rfl
    · rw [h]
      rfl
  rw [spacingFrom_append, ha.1, hlast, hb.1]
  rfl

theorem IsLines.lines_join (l : List String) (h : ∀ t ∈ l, IsLines t.data) :
    IsLines (String.join l).data := by
  induction l with
  | nil => exact IsLines.nil
  | cons a l ih =>
    rw [join_cons, String.data_append]
    exact IsLines.lines_append (h a (List.mem_cons_self _ _))
      (ih fun t ht => h t (List.mem_cons_of_mem _ ht))

/-- A line body that obeys the format and does not end with a space, followed by a newline, is
a complete line. -/
theorem IsLines.lines_line (body : String) (h1 : spacingFrom '\n' body.data = true)
    (h2 : body.data.getLast?.getD '\n' ≠ ' ') : IsLines (body ++ "\n").data := by
  refine ⟨?_, EndsWithNewline.ends_line body⟩
  rw [String.data_append, spacingFrom_append, h1]
  simp [spacingFrom, h2]

theorem getLast?_getD_append (a b : List Char) (p : Char) :
    (a ++ b).getLast?.getD p = b.getLast?.getD (a.getLast?.getD p) := by
  rw [List.getLast?_append]
  cases b.getLast? <;> rfl

theorem spacing_after_token (ts : List String) (hts : ∀ t ∈ ts, IsToken t) (q : Char)
    (hq : q ≠ ' ' ∧ q ≠ '\n') :
    spacingFrom q (String.join (ts.map fun t => " " ++ t)).data = true ∧
      (String.join (ts.map fun t => " " ++ t)).data.getLast?.getD q ≠ ' ' ∧
      (String.join (ts.map fun t => " " ++ t)).data.getLast?.getD q ≠ '\n' := by
  induction ts generalizing q with
  | nil => exact ⟨rfl, hq.1, hq.2⟩
  | cons t ts ih =>
    have ht := hts t (List.mem_cons_self _ _)
    have hword := IsToken.word ht
    have hlast := getLast?_getD_word t.data ' ' (IsToken.data_ne_nil ht) hword
    obtain ⟨ih1, ih2, ih3⟩ := ih (fun x hx => hts x (List.mem_cons_of_mem _ hx))
      (t.data.getLast?.getD ' ') hlast
    have hdata : (String.join ((t :: ts).map fun t => " " ++ t)).data =
        (' ' :: t.data) ++ (String.join (ts.map fun t => " " ++ t)).data := by
      rw [List.map_cons, join_cons, String.data_append, String.data_append]
      rfl
    have hlastA : (' ' :: t.data).getLast?.getD q = t.data.getLast?.getD ' ' := by
      rw [List.getLast?_cons, Option.getD_some]
    rw [hdata, getLast?_getD_append, spacingFrom_append, hlastA]
    refine ⟨?_, ih2, ih3⟩
    rw [ih1, Bool.and_true]
    simp [spacingFrom, hq.1, hq.2, spacingFrom_word t.data ' ' hword]

/-- The body of a line of space-joined tokens obeys the format and does not end with a
space. -/
theorem spacing_tokens_body (ts : List String) (hts : ∀ t ∈ ts, IsToken t) :
    spacingFrom '\n' (String.intercalate " " ts).data = true ∧
      (String.intercalate " " ts).data.getLast?.getD '\n' ≠ ' ' := by
  cases ts with
  | nil => exact ⟨rfl, by decide⟩
  | cons t ts =>
    have ht := hts t (List.mem_cons_self _ _)
    have hword := IsToken.word ht
    have hlast := getLast?_getD_word t.data '\n' (IsToken.data_ne_nil ht) hword
    obtain ⟨h1, h2, _⟩ := spacing_after_token ts
      (fun x hx => hts x (List.mem_cons_of_mem _ hx)) (t.data.getLast?.getD '\n') hlast
    rw [intercalate_cons, String.data_append, getLast?_getD_append, spacingFrom_append,
      spacingFrom_word t.data '\n' hword, h1]
    exact ⟨rfl, h2⟩

/-- The body of a line of concatenated tokens obeys the format and does not end with a
space. -/
theorem spacing_cells_body (cells : List String) (hts : ∀ t ∈ cells, IsToken t) :
    spacingFrom '\n' (String.intercalate "" cells).data = true ∧
      (String.intercalate "" cells).data.getLast?.getD '\n' ≠ ' ' := by
  have hword : ∀ c ∈ (String.intercalate "" cells).data, c ≠ ' ' ∧ c ≠ '\n' := by
    intro c hc
    rcases mem_data_intercalate c "" cells hc with h | ⟨t, ht, hct⟩
    · cases h
    · exact IsToken.word (hts t ht) c hct
  refine ⟨spacingFrom_word _ _ hword, ?_⟩
  by_cases hnil : (String.intercalate "" cells).data = []
  · rw [hnil]
    decide
  · exact (getLast?_getD_word _ '\n' hnil hword).1

theorem GridIOSegment.rowText_isLines (hasSpaces : Bool) (row : List String)
    (hts : ∀ t ∈ row, IsToken t) : IsLines (GridIOSegment.rowText hasSpaces row).data := by
  cases hasSpaces with
  | true =>
    obtain ⟨h1, h2⟩ := spacing_tokens_body row hts
    exact IsLines.lines_line _ h1 h2
  | false =>
    obtain ⟨h1, h2⟩ := spacing_cells_body row hts
    exact IsLines.lines_line _ h1 h2

theorem LinesIOSegment.row_isLines (vars : List VerticalVariable) (i : Nat)
    (hlen : ∀ v ∈ vars, i < v.value.length)
    (hts : ∀ v ∈ vars, ∀ t ∈ v.value, IsToken t) :
    IsLines (LinesIOSegment.row vars i).data := by
  have htok : ∀ t ∈ vars.map (fun v => v.value.getD i ""), IsToken t := by
    intro t ht
    obtain ⟨v, hv, rfl⟩ := List.mem_map.mp ht
    rw [List.getD_eq_getElem _ _ (hlen v hv)]
    exact hts v hv _ (List.getElem_mem _)
  obtain ⟨h1, h2⟩ := spacing_tokens_body _ htok
  exact IsLines.lines_line _ h1 h2

/-- What a segment writes is made of complete lines that obey the text format, when its
elements are tokens and no vector of a Line segment is empty. -/
theorem IOSegment.written_isLines (s : IOSegment) (w : String)
    (h : s.printTo "" = .returned w) (htok : ∀ t ∈ s.elements, IsToken t)
    (hvec : s.NoEmptyVector) : IsLines w.data := by
  cases s with
  | line s =>
    have hg := intercalate_space_groups (s.vars.map HorizontalVariable.tokens)
      (by simpa using hvec)
    simp only [List.map_map, Function.comp_def] at hg
    rw [IOSegment.printTo, LineIOSegment.printTo_renderings, hg, String.empty_append] at h
    injection h with h
    rw [← h]
    obtain ⟨h1, h2⟩ := spacing_tokens_body _ htok
    exact IsLines.lines_line _ h1 h2
  | lines s =>
    obtain ⟨d, vars⟩ := s
    cases vars with
    | nil => simp [IOSegment.printTo, LinesIOSegment.printTo] at h
    | cons var0 rest =>
      rw [IOSegment.printTo, LinesIOSegment.printTo_cons] at h
      by_cases hall : ∀ v ∈ rest, v.size = var0.size
      · rw [if_pos hall, String.empty_append] at h
        injection h with h
        rw [← h]
        apply IsLines.lines_join
        intro t ht
        obtain ⟨i, hi, rfl⟩ := List.mem_map.mp ht
        have hi2 : i < var0.size := List.mem_range.mp hi
        apply LinesIOSegment.row_isLines
        · intro v hv
          rcases List.mem_cons.mp hv with rfl | hv
          · exact hi2
          · have := hall v hv
            simp only [VerticalVariable.size] at this hi2
            omega
        · intro v hv t ht
          exact htok t (List.mem_flatMap.mpr ⟨v, hv, ht⟩)
      · rw [if_neg hall] at h
        cases h
  | grid s =>
    obtain ⟨d, var, hs⟩ := s
    cases var with
    | none => simp [IOSegment.printTo, GridIOSegment.printTo] at h
    | some m =>
      rw [IOSegment.printTo, GridIOSegment.printTo_bound] at h
      by_cases hu : m.UnequalColumns
      · rw [if_pos hu] at h
        cases h
      · rw [if_neg hu, String.empty_append] at h
        injection h with h
        rw [← h]
        apply IsLines.lines_join
        intro t ht
        obtain ⟨row, hrow, rfl⟩ := List.mem_map.mp ht
        apply GridIOSegment.rowText_isLines
        intro c hc
        exact htok c (List.mem_flatten.mpr ⟨row, hrow, hc⟩)

theorem count_newline_line (body : String) (h : '\n' ∉ body.data) :
    (body ++ "\n").data.count '\n' = 1 := by
  rw [String.data_append, List.count_append, List.count_eq_zero.mpr h]
  rfl

theorem not_mem_intercalate (sep : String) (l : List String) (hsep : '\n' ∉ sep.data)
    (hl : ∀ t ∈ l, '\n' ∉ t.data) : '\n' ∉ (String.intercalate sep l).data := by
  intro h
  rcases mem_data_intercalate _ sep l h with h | ⟨t, ht, hc⟩
  · exact hsep h
  · exact hl t ht hc

theorem not_mem_getD (l : List String) (i : Nat) (hl : ∀ t ∈ l, '\n' ∉ t.data) :
    '\n' ∉ (l.getD i "").data := by
  by_cases h : i < l.length
  · rw [List.getD_eq_getElem _ _ h]
    exact hl _ (List.getElem_mem _)
  · rw [List.getD_eq_default _ _ (Nat.le_of_not_lt h)]
    simp

theorem sum_map_one {α : Type} (l : List α) (f : α → Nat) (h : ∀ a ∈ l, f a = 1) :
    (l.map f).sum = l.length := by
  induction l with
  | nil => rfl
  | cons a l ih =>
    rw [List.map_cons, List.sum_cons, h a (List.mem_cons_self _ _),
      ih fun b hb => h b (List.mem_cons_of_mem _ hb), List.length_cons]
    omega

/-- What a segment writes has one newline per logical row and is empty or ends with a newline,
when no element contains a newline. -/
theorem IOSegment.written_newlines (s : IOSegment) (w : String)
    (h : s.printTo "" = .returned w) (hel : ∀ t ∈ s.elements, '\n' ∉ t.data) :
    w.data.count '\n' = s.rows ∧ EndsWithNewline w.data := by
  cases s with
  | line s =>
    rw [IOSegment.printTo, LineIOSegment.printTo_renderings, String.empty_append] at h
    injection h with h
    rw [← h]
    refine ⟨count_newline_line _ ?_, EndsWithNewline.ends_line _⟩
    apply not_mem_intercalate _ _ (by decide)
    intro r hr
    obtain ⟨v, hv, rfl⟩ := List.mem_map.mp hr
    apply not_mem_intercalate _ _ (by decide)
    intro t ht
    exact hel t (List.mem_flatMap.mpr ⟨v, hv, ht⟩)
  | lines s =>
    obtain ⟨d, vars⟩ := s
    cases vars with
    | nil => simp [IOSegment.printTo, LinesIOSegment.printTo] at h
    | cons var0 rest =>
      rw [IOSegment.printTo, LinesIOSegment.printTo_cons] at h
      by_cases hall : ∀ v ∈ rest, v.size = var0.size
      · rw [if_pos hall, String.empty_append] at h
        injection h with h
        rw [← h]
        have hrow : ∀ i, '\n' ∉
            (String.intercalate " " ((var0 :: rest).map fun v => v.value.getD i "")).data := by
          intro i
          apply not_mem_intercalate _ _ (by decide)
          intro t ht
          obtain ⟨v, hv, rfl⟩ := List.mem_map.mp ht
          apply not_mem_getD
          intro x hx
          exact hel x (List.mem_flatMap.mpr ⟨v, hv, hx⟩)
        constructor
        · rw [count_data_join, List.map_map, sum_map_one]
          · simp [IOSegment.rows]
          · intro i _
            exact count_newline_line _ (hrow i)
        · apply EndsWithNewline.ends_join
          intro t ht
          obtain ⟨i, _, rfl⟩ := List.mem_map.mp ht
          exact EndsWithNewline.ends_line _
      · rw [if_neg hall] at h
        cases h
  | grid s =>
    obtain ⟨d, var, hs⟩ := s
    cases var with
    | none => simp [IOSegment.printTo, GridIOSegment.printTo] at h
    | some m =>
      rw [IOSegment.printTo, GridIOSegment.printTo_bound] at h
      by_cases hu : m.UnequalColumns
      · rw [if_pos hu] at h
        cases h
      · rw [if_neg hu, String.empty_append] at h
        injection h with h
        rw [← h]
        constructor
        · rw [count_data_join, List.map_map, sum_map_one]
          · simp [IOSegment.rows, MatrixVariable.rowsSize]
          · intro row hrow
            apply count_newline_line
            apply not_mem_intercalate
            · cases hs <;> simp [GridIOSegment.separator]
            · intro c hc
              exact hel c (List.mem_flatten.mpr ⟨row, hrow, hc⟩)
        · apply EndsWithNewline.ends_join
          intro t ht
          obtain ⟨row, _, rfl⟩ := List.mem_map.mp ht
          exact EndsWithNewline.ends_line _

/-- A format that prints has written, segment by segment, what each of its segments
writes. -/
theorem IOFormat.printSegments_returned (heap : Heap) (segments : List Nat) (out o : String)
    (h : IOFormat.printSegments heap segments out = .returned o) :
    ∃ ws : List String, o = out ++ String.join ws ∧
      List.Forall₂ (fun s w => IOSegment.printTo s "" = .returned w)
        (segments.filterMap fun p => heap[p]?) ws := by
  induction segments generalizing out with
  | nil =>
    simp only [IOFormat.printSegments] at h
    injection h with h
    exact ⟨[], by simp [join_nil, h], List.Forall₂.nil⟩
  | cons p rest ih =>
    simp only [IOFormat.printSegments] at h
    cases hp : heap[p]? with
    | none =>
      rw [hp] at h
      cases h
    | some s =>
      rw [hp] at h
      rcases IOSegment.printTo_uniform s with ⟨w, hw⟩ | ⟨e, he⟩
      · simp only [hw out] at h
        obtain ⟨ws, h1, h2⟩ := ih _ h
        refine ⟨w :: ws, ?_, ?_⟩
        · rw [h1, join_cons, String.append_assoc]
        · rw [List.filterMap_cons, hp]
          refine List.Forall₂.cons ?_ h2
          rw [hw "", String.empty_append]
      · simp only [he out] at h
        cases h

theorem IOSegment.written_all_isLines (ss : List IOSegment) (ws : List String)
    (h : List.Forall₂ (fun s w => IOSegment.printTo s "" = .returned w) ss ws)
    (htok : ∀ s ∈ ss, (∀ t ∈ s.elements, IsToken t) ∧ s.NoEmptyVector) :
    ∀ w ∈ ws, IsLines w.data := by
  induction h with
  | nil =>
    intro w hw
    cases hw
  | cons hsw _ ih =>
    intro w hw
    rcases List.mem_cons.mp hw with rfl | hw
    · exact IOSegment.written_isLines _ _ hsw (htok _ (List.mem_cons_self _ _)).1
        (htok _ (List.mem_cons_self _ _)).2
    · exact ih (fun s hs => htok s (List.mem_cons_of_mem _ hs)) w hw

theorem IOSegment.written_sum_rows (ss : List IOSegment) (ws : List String)
    (h : List.Forall₂ (fun s w => IOSegment.printTo s "" = .returned w) ss ws)
    (hel : ∀ s ∈ ss, ∀ t ∈ s.elements, '\n' ∉ t.data) :
    (ws.map fun w => w.data.count '\n').sum = (ss.map IOSegment.rows).sum ∧
      ∀ w ∈ ws, EndsWithNewline w.data := by
  induction h with
  | nil => exact ⟨rfl, fun w hw => by cases hw⟩
  | cons hsw _ ih =>
    obtain ⟨ih1, ih2⟩ := ih fun s hs => hel s (List.mem_cons_of_mem _ hs)
    obtain ⟨h1, h2⟩ := IOSegment.written_newlines _ _ hsw (hel _ (List.mem_cons_self _ _))
    refine ⟨?_, ?_⟩
    · simp only [List.map_cons, List.sum_cons, ih1, h1]
    · intro w hw
      rcases List.mem_cons.mp hw with rfl | hw
      · exact h2
      · exact ih2 w hw

/-! ## Text format of a printed format -/

/-- C15: for every format that prints successfully, where no rendered element contains a
newline, the number of newline characters in the output is the total number of logical rows
(1 for each Line segment, the common vector length for each Lines segment, the number of rows
for each Grid segment), and the output is empty or ends with a newline. -/
theorem IOFormat.printTo_newlines (heap : Heap) (f : IOFormat) (o : String)
    (hprint : f.printTo heap "" = .returned o)
    (hel : ∀ s ∈ f.segmentsOf heap, ∀ t ∈ s.elements, '\n' ∉ t.data) :
    o.data.count '\n' = ((f.segmentsOf heap).map IOSegment.rows).sum ∧
      (o = "" ∨ o.data.getLast? = some '\n') := by
  obtain ⟨ws, ho, hall⟩ := IOFormat.printSegments_returned heap f.segments "" o hprint
  obtain ⟨h1, h2⟩ := IOSegment.written_sum_rows _ ws hall hel
  rw [String.empty_append] at ho
  refine ⟨?_, ?_⟩
  · rw [ho, count_data_join, h1]
    rfl
  · rcases EndsWithNewline.ends_join ws h2 with h | h
    · left
      rw [ho]
      apply String.ext
      simpa using h
    · right
      rw [ho]
      exact h

/-- C15, at a format of a Line segment, a Lines segment of two vectors of length 2 and a Grid
segment of two rows: five newlines, the last character included. -/
theorem IOFormat.printTo_newlines_witness :
    IOFormat.printTo
        [.line { description := "a", vars := [.Scalar "1", .HorizontalVector ["2", "3"]] },
          .lines { description := "b", vars := [⟨["4", "5"]⟩, ⟨["6", "7"]⟩] },
          .grid ((GridIOSegment.init "c").comma (.charMatrix [['a', 'b'], ['c', 'd']])).1]
        { segments := [0, 1, 2] } "" = .returned "1 2 3\n4 6\n5 7\nab\ncd\n" ∧
      "1 2 3\n4 6\n5 7\nab\ncd\n".data.count '\n' = 5 ∧
      "1 2 3\n4 6\n5 7\nab\ncd\n".data.getLast? = some '\n' := by
  refine ⟨by decide, ?_⟩
  obtain ⟨h1, h2⟩ := IOFormat.printTo_newlines
    [.line { description := "a", vars := [.Scalar "1", .HorizontalVector ["2", "3"]] },
      .lines { description := "b", vars := [⟨["4", "5"]⟩, ⟨["6", "7"]⟩] },
      .grid ((GridIOSegment.init "c").comma (.charMatrix [['a', 'b'], ['c', 'd']])).1]
    { segments := [0, 1, 2] } "1 2 3\n4 6\n5 7\nab\ncd\n" (by decide) (by decide)
  refine ⟨h1.trans (by decide), ?_⟩
  rcases h2 with h | h
  · exact absurd h (by decide)
  · exact h

end tcframe
